import Mathlib

/-!
Shallow embedding of the geometry-reconstruction pipeline of
`docs/js/geometryParser.js` (helpers from `docs/js/boundingBox.js`), together
with proofs settling the frozen claims about it.

Modelling conventions, chosen once for the whole file:
* JS numbers are modelled as exact integers (`Int`).  Every claim under study
  depends only on exact equality and comparisons of coordinates, never on
  floating-point rounding.
* `coordinateToKey` renders a coordinate to a fixed-precision string in the
  source; on the exact integer model that rendering is injective, so the key
  is modelled as the coordinate pair itself.
* JS `Map` objects are modelled as insertion-ordered association lists.
* Functions that would throw a `TypeError` on malformed input (for example a
  way with an empty coordinate array) are modelled as total functions using a
  default value; all theorems below are stated over well-formed inputs, where
  the default is never consulted.
* The one deliberate `throw` of the source (`detectComplexity`) and its
  `try`/`catch` treatment in `parseElements` are modelled with `Except`.
-/

namespace XofY

/-- A coordinate pair in the order the source uses after conversion:
`(lon, lat)`. -/
abbrev Coord := Int × Int

/-- A coordinate chain, the `[lon, lat][]` arrays of the source. -/
abbrev Chain := List Coord

/-- Raw geometry points as delivered by Overpass: objects with `lat` and
`lon` members (source order of access: `coord.lat`, `coord.lon`). -/
structure LatLon where
  lat : Int
  lon : Int
  deriving DecidableEq, Repr

/-- Conversion used throughout the source: `coord => [coord.lon, coord.lat]`. -/
def latLonToCoord (p : LatLon) : Coord := (p.lon, p.lat)

/-- OSM tag bags: association lists of key-value pairs with unique keys,
modelling plain JS objects. -/
abbrev Tags := List (String × String)

/-- Property access `tags[key]` on a JS object modelled as first-match lookup. -/
def tagLookup : Tags → String → Option String
  | [], _ => none
  | p :: rest, key => if p.1 = key then some p.2 else tagLookup rest key

/-- JS truthiness of a string-valued property access: `undefined` and the
empty string are falsy, every other string is truthy. -/
def truthy : Option String → Bool
  | none => false
  | some s => s ≠ ""

/-- Source `isClosed` (geometryParser.js:14): a raw way geometry is closed iff
it has at least 3 points and its first and last point agree in both `lat` and
`lon`. -/
def isClosed (geometry : List LatLon) : Bool :=
  if geometry.length < 3 then false
  else
    let first := geometry.headD ⟨0, 0⟩
    let last := geometry.getLastD ⟨0, 0⟩
    first.lat = last.lat ∧ first.lon = last.lon

/-- The fixed key set of `isArea` (geometryParser.js:45). -/
def areaKeys : List String :=
  [ "building", "landuse", "amenity", "shop", "building:part",
    "boundary", "historic", "place", "area:highway"]

/-- Highway values treated as areas (geometryParser.js:58). -/
def areaHighways : List String := [ "rest_area", "services", "platform"]

/-- Leisure values that stay linear (geometryParser.js:76). -/
def linearLeisure : List String := [ "picnic_table", "slipway", "firepit"]

/-- Natural values treated as areas (geometryParser.js:84). -/
def areaNatural : List String :=
  [ "water", "wood", "scrub", "land", "grassland", "heath",
    "rock", "bare_rock", "sand", "beach", "scree", "glacier",
    "shingle", "fell", "reef", "stone", "mud", "landslide"]

/-- Source `isArea` (geometryParser.js:31), rule for rule in source order.
`tags[key]` guards such as `if (tags.highway)` are JS truthiness tests,
modelled by `truthy`. -/
def isArea (tags : Tags) : Bool :=
  if tags.isEmpty then false
  else if tagLookup tags "area" = some "yes" then true
  else if tagLookup tags "area" = some "no" then false
  else if areaKeys.any (fun k => truthy (tagLookup tags k)) then true
  else if truthy (tagLookup tags "highway") &&
          areaHighways.contains ((tagLookup tags "highway").getD "") then true
  else if tagLookup tags "railway" = some "platform" then true
  else if tagLookup tags "aeroway" = some "aerodrome" then true
  else if truthy (tagLookup tags "leisure") &&
          !linearLeisure.contains ((tagLookup tags "leisure").getD "") then true
  else if truthy (tagLookup tags "natural") &&
          areaNatural.contains ((tagLookup tags "natural").getD "") then true
  else false

/-- Source `coordsEqual` (geometryParser.js:104): componentwise equality of
two `[lon, lat]` pairs. -/
def coordsEqual (c1 c2 : Coord) : Bool :=
  decide (c1.1 = c2.1) && decide (c1.2 = c2.2)

/-- Source `coordinateToKey` (geometryParser.js:113) renders `[lon, lat]` to
the string `lon.toFixed(7) + "," + lat.toFixed(7)`; on the exact integer
model that rendering is injective, so the key is the coordinate itself. -/
def coordinateToKey (coord : Coord) : Coord := coord

theorem coordsEqual_iff (a b : Coord) : coordsEqual a b = true ↔ a = b := by
  cases a; cases b
  simp [coordsEqual, Prod.ext_iff]

/-- Insertion sort, ascending over `Nat`, used to model
`wayIds.slice().sort((a, b) => a - b)` in `generateComponentId`. -/
def insertNatAsc (x : Nat) : List Nat → List Nat
  | [] => [x]
  | y :: rest => if x ≤ y then x :: y :: rest else y :: insertNatAsc x rest

/-- Sort a list of way IDs ascending. -/
def sortNatAsc : List Nat → List Nat
  | [] => []
  | x :: rest => insertNatAsc x (sortNatAsc rest)

/-- Source `generateComponentId` (geometryParser.js:122): the string
`component_` followed by the sorted way IDs joined with underscores. -/
def generateComponentId (wayIds : List Nat) : String :=
  "component_" ++ String.intercalate "_" ((sortNatAsc wayIds).map toString)

/-- An open way as collected for coalescing: `{id, tags, coordinates}`. -/
structure Way where
  id : Nat
  tags : Tags
  coordinates : Chain
  deriving DecidableEq, Repr

/-- JS object spread `{...base, ...extra}` modelled for association lists:
keys of `extra` override those of `base`, remaining `base` keys keep their
order. -/
def objAssign (base extra : Tags) : Tags :=
  base.filter (fun p => !(extra.any (fun q => q.1 = p.1))) ++ extra

/-- Source `aggregateTagsForComponent` (geometryParser.js:131): tags of the
first member way carrying a `name` tag (or of the first way), plus the two
internal bookkeeping keys. -/
def aggregateTagsForComponent (ways : List Way) : Tags :=
  let primary :=
    match ways.find? (fun w => truthy (tagLookup w.tags "name")) with
    | some w => w
    | none => ways.headD ⟨0, [], []⟩
  objAssign primary.tags
    [("_component_way_count", toString ways.length),
     ("_component_way_ids", String.intercalate "," (ways.map (fun w => toString w.id)))]

/-- One entry of the endpoint map: `{wayId, position}` where `position` is
the string `start` or `end`. -/
structure EndpointEntry where
  wayId : Nat
  pos : String
  deriving DecidableEq, Repr

/-- The endpoint map: a JS `Map` from coordinate keys to entry lists,
modelled as an insertion-ordered association list. -/
abbrev EndpointMap := List (Coord × List EndpointEntry)

/-- Lookup in an insertion-ordered association list (JS `Map.get`). -/
def emGet (m : EndpointMap) (k : Coord) : Option (List EndpointEntry) :=
  match m with
  | [] => none
  | p :: rest => if p.1 = k then some p.2 else emGet rest k

/-- Append an entry to the list stored at `k`, creating the key at the end
of the map when absent (JS `Map.set` insertion-order semantics combined with
`push`). -/
def emPush (m : EndpointMap) (k : Coord) (e : EndpointEntry) : EndpointMap :=
  match m with
  | [] => [(k, [e])]
  | p :: rest => if p.1 = k then (p.1, p.2 ++ [e]) :: rest else p :: emPush rest k e

/-- One iteration of `buildEndpointMap` (geometryParser.js:240): record the
way under the key of its first coordinate, and under the key of its last
coordinate only when the two keys differ. -/
def endpointStep (m : EndpointMap) (way : Way) : EndpointMap :=
  let firstNode := coordinateToKey (way.coordinates.headD (0, 0))
  let lastNode := coordinateToKey (way.coordinates.getLastD (0, 0))
  let m1 := emPush m firstNode ⟨way.id, "start"⟩
  if firstNode ≠ lastNode then emPush m1 lastNode ⟨way.id, "end"⟩ else m1

/-- Source `buildEndpointMap` (geometryParser.js:237). -/
def buildEndpointMap (ways : List Way) : EndpointMap :=
  ways.foldl endpointStep []

/-- One over-connected node as reported by the complexity error:
`{coords, connectionCount, wayIds}`. -/
structure ComplexNode where
  coords : Coord
  connectionCount : Nat
  wayIds : List Nat
  deriving DecidableEq, Repr

/-- The `details` payload of a complexity error. -/
structure ErrorDetails where
  complexNodeCount : Nat
  threshold : Nat
  topComplexNodes : List ComplexNode
  suggestion : String
  deriving DecidableEq, Repr

/-- A thrown JS error as observed by `parseElements`: its `type` and
`message` properties, and the structured `details` carried by complexity
errors. -/
structure JsError where
  type : String
  message : String
  details : Option ErrorDetails
  deriving DecidableEq, Repr

/-- The over-connected nodes collected by `detectComplexity`
(geometryParser.js:280), in endpoint-map iteration order: every key whose
entry list has length above the connectivity threshold 3, with the
coordinates parsed back from the key. -/
def complexNodesOf (endpointMap : EndpointMap) : List ComplexNode :=
  (endpointMap.filter (fun p => 3 < p.2.length)).map
    (fun p => ⟨p.1, p.2.length, p.2.map (fun c => c.wayId)⟩)

/-- Stable insertion of a node into a list sorted by descending
`connectionCount`, modelling the stable JS sort with comparator
`(a, b) => b.connectionCount - a.connectionCount`. -/
def insertConnDesc (x : ComplexNode) : List ComplexNode → List ComplexNode
  | [] => [x]
  | y :: rest =>
    if y.connectionCount < x.connectionCount then x :: y :: rest
    else y :: insertConnDesc x rest

/-- Stable sort by descending `connectionCount` (geometryParser.js:294). -/
def sortConnDesc : List ComplexNode → List ComplexNode
  | [] => []
  | x :: rest => insertConnDesc x (sortConnDesc rest)

/-- Source `detectComplexity` (geometryParser.js:269), with the `throw`
modelled as returning `some` error: skip entirely below 1000 ways, otherwise
collect over-connected nodes and raise the structured `NETWORK_TOO_COMPLEX`
error when any exist. -/
def detectComplexity (endpointMap : EndpointMap) (wayCount : Nat) :
    Option JsError :=
  if wayCount < 1000 then none
  else
    let complexNodes := complexNodesOf endpointMap
    if complexNodes.length > 0 then
      let n := complexNodes.length
      some
        { type := "NETWORK_TOO_COMPLEX"
          message := "Network too complex: Found " ++ toString n ++
            " node(s) with more than 3 connections"
          details := some
            { complexNodeCount := n
              threshold := 3
              topComplexNodes := (sortConnDesc complexNodes).take 5
              suggestion := "This appears to be a road network. Try querying more specific linear features like trails, waterways, or power lines." } }
    else none

/-- First coordinate of a chain (`way[0]`); default never consulted on the
well-formed inputs of the theorems below. -/
def chainStart (c : Chain) : Coord := c.headD (0, 0)

/-- Last coordinate of a chain (`way[way.length - 1]`). -/
def chainEnd (c : Chain) : Coord := c.getLastD (0, 0)

/-- The candidate scan of `mergeWaysIntoRings` (geometryParser.js:181): walk
the remaining chains in order and splice the first one whose start or end
matches an end of the current accumulator, testing the four orientation
cases in source order.  Returns the extended accumulator and the remaining
chains with the spliced candidate removed in place. -/
def scanConnect (current : Chain) : List Chain → Option (Chain × List Chain)
  | [] => none
  | c :: rest =>
    if coordsEqual (chainEnd current) (chainStart c) then
      some (current ++ c.tail, rest)
    else if coordsEqual (chainEnd current) (chainEnd c) then
      some (current ++ c.dropLast.reverse, rest)
    else if coordsEqual (chainStart current) (chainEnd c) then
      some (c.dropLast ++ current, rest)
    else if coordsEqual (chainStart current) (chainStart c) then
      some (c.tail.reverse ++ current, rest)
    else
      match scanConnect current rest with
      | some (cur, rest2) => some (cur, c :: rest2)
      | none => none

theorem scanConnect_length (current : Chain) :
    ∀ remaining cur rest, scanConnect current remaining = some (cur, rest) →
      rest.length + 1 = remaining.length := by
  intro remaining
  induction remaining with
  | nil => intro cur rest h; simp [scanConnect] at h
  | cons c cs ih =>
    intro cur rest h
    simp only [scanConnect] at h
    split at h
    · simp only [Option.some.injEq, Prod.mk.injEq] at h
      rcases h with ⟨-, rfl⟩; simp
    · split at h
      · simp only [Option.some.injEq, Prod.mk.injEq] at h
        rcases h with ⟨-, rfl⟩; simp
      · split at h
        · simp only [Option.some.injEq, Prod.mk.injEq] at h
          rcases h with ⟨-, rfl⟩; simp
        · split at h
          · simp only [Option.some.injEq, Prod.mk.injEq] at h
            rcases h with ⟨-, rfl⟩; simp
          · cases hm : scanConnect current cs with
            | none => rw [hm] at h; simp at h
            | some p =>
              rw [hm] at h
              cases p with
              | mk cur2 rest2 =>
                simp only [Option.some.injEq, Prod.mk.injEq] at h
                rcases h with ⟨rfl, rfl⟩
                have := ih cur2 rest2 hm
                simp [← this]

/-- The inner extension loop of `mergeWaysIntoRings` (geometryParser.js:170):
keep splicing candidates onto the current accumulator; stop successfully the
moment the accumulator closes, and fail when it is open and no candidate
connects. -/
def growRing (current : Chain) (remaining : List Chain) :
    Option (Chain × List Chain) :=
  if coordsEqual (chainStart current) (chainEnd current) then
    some (current, remaining)
  else
    match h : scanConnect current remaining with
    | some (cur, rest) => growRing cur rest
    | none => none
  termination_by remaining.length
  decreasing_by
    have := scanConnect_length current remaining cur rest h
    omega

theorem growRing_length (current : Chain) (remaining : List Chain) :
    ∀ ring rem, growRing current remaining = some (ring, rem) →
      rem.length ≤ remaining.length := by
  induction current, remaining using growRing.induct with
  | case1 current remaining hclosed =>
    intro ring rem h
    rw [growRing, if_pos hclosed] at h
    simp only [Option.some.injEq, Prod.mk.injEq] at h
    rcases h with ⟨-, rfl⟩
    exact Nat.le_refl _
  | case2 current remaining hclosed cur rest hscan ih =>
    intro ring rem h
    rw [growRing, if_neg hclosed, hscan] at h
    have h1 := ih ring rem h
    have h2 := scanConnect_length current remaining cur rest hscan
    omega
  | case3 current remaining hclosed hscan =>
    intro ring rem h
    rw [growRing, if_neg hclosed, hscan] at h
    exact absurd h (by simp)

/-- The outer loop of `mergeWaysIntoRings` (geometryParser.js:164): start a
fresh accumulator from the first remaining chain, grow it into a ring, and
repeat; `none` models the `return []` taken when an open accumulator cannot
be extended. -/
def mergeLoop : List Chain → Option (List Chain)
  | [] => some []
  | c :: rest =>
    match h : growRing c rest with
    | some (ring, rem) =>
      match mergeLoop rem with
      | some rings => some (ring :: rings)
      | none => none
    | none => none
  termination_by l => l.length
  decreasing_by
    have := growRing_length c rest ring rem h
    simp ; omega

/-- Source `mergeWaysIntoRings` (geometryParser.js:146): empty input gives no
rings; a single chain is accepted exactly when already closed; two or more
chains run the greedy accumulator loop, with a failed merge collapsing the
whole result to the empty list. -/
def mergeWaysIntoRings (ways : List Chain) : List Chain :=
  match ways with
  | [] => []
  | [w] => if coordsEqual (chainStart w) (chainEnd w) then [w] else []
  | _ => (mergeLoop ways).getD []

/-- The way lookup table `new Map(ways.map(w => [w.id, w]))`, modelled as an
association list.  OSM way IDs are unique, so first-match lookup agrees with
the JS `Map`. -/
abbrev WayMap := List (Nat × Way)

def buildWayMap (ways : List Way) : WayMap := ways.map (fun w => (w.id, w))

def wmGet : WayMap → Nat → Option Way
  | [], _ => none
  | p :: rest, i => if p.1 = i then some p.2 else wmGet rest i

/-- `wayMap.get(id)` with a default for the absent case, on which the source
would throw; never consulted on the well-formed inputs of the theorems. -/
def getWayD (m : WayMap) (i : Nat) : Way := (wmGet m i).getD ⟨0, [], []⟩

/-- Replace the value stored under `i` (models in-place mutation of the way
object reached through the map). -/
def wmSet : WayMap → Nat → Way → WayMap
  | [], _, _ => []
  | p :: rest, i, w => if p.1 = i then (p.1, w) :: rest else p :: wmSet rest i w

/-- All way IDs mentioned anywhere in an endpoint map. -/
def emWayIds (em : EndpointMap) : List Nat :=
  em.foldr (fun p acc => p.2.map (fun e => e.wayId) ++ acc) []

theorem emGet_wayIds_subset (em : EndpointMap) (k : Coord) :
    ∀ l, emGet em k = some l → ∀ e ∈ l, e.wayId ∈ emWayIds em := by
  induction em with
  | nil => intro l h; simp [emGet] at h
  | cons p rest ih =>
    intro l h e he
    simp only [emGet] at h
    by_cases hk : p.1 = k
    · rw [if_pos hk] at h
      cases h
      simp only [emWayIds, List.foldr_cons, List.mem_append, List.mem_map]
      exact Or.inl ⟨e, he, rfl⟩
    · rw [if_neg hk] at h
      have := ih l h e he
      simp only [emWayIds, List.foldr_cons, List.mem_append]
      exact Or.inr this

theorem emGetD_wayIds (em : EndpointMap) (k : Coord) (e : EndpointEntry)
    (he : e ∈ (emGet em k).getD []) : e.wayId ∈ emWayIds em := by
  cases hg : emGet em k with
  | none => rw [hg] at he; simp at he
  | some l =>
    rw [hg] at he
    exact emGet_wayIds_subset em k l hg e (by simpa using he)

theorem length_filter_le_of_imp (l : List Nat) (p q : Nat → Bool)
    (h : ∀ a, p a = true → q a = true) :
    (l.filter p).length ≤ (l.filter q).length :=
  List.Sublist.length_le (List.monotone_filter_right l h)

theorem length_filter_notMem_cons_lt (R : List Nat) (x : Nat) (visited : List Nat)
    (hxR : x ∈ R) (hxv : x ∉ visited) :
    (R.filter (fun i => decide (i ∉ x :: visited))).length <
      (R.filter (fun i => decide (i ∉ visited))).length := by
  induction R with
  | nil => cases hxR
  | cons a rs ih =>
    rw [List.filter_cons, List.filter_cons]
    have himp : ∀ i : Nat, (decide (i ∉ x :: visited)) = true →
        (decide (i ∉ visited)) = true := by
      intro i hi
      simp only [decide_eq_true_eq, List.mem_cons] at hi ⊢
      exact fun hv => hi (Or.inr hv)
    by_cases hax : a = x
    · subst hax
      have h1 : (decide (a ∉ a :: visited)) = false := by simp
      have h2 : (decide (a ∉ visited)) = true := by simpa using hxv
      rw [h1, h2]
      simp only [Bool.false_eq_true, if_false, if_true, List.length_cons]
      have hle := length_filter_le_of_imp rs _ _ himp
      omega
    · have hxrs : x ∈ rs := by
        rcases List.mem_cons.mp hxR with h | h
        · exact absurd h.symm hax
        · exact h
      have hrec := ih hxrs
      by_cases hav : a ∈ visited
      · have h1 : (decide (a ∉ x :: visited)) = false := by simp [hav]
        have h2 : (decide (a ∉ visited)) = false := by simp [hav]
        rw [h1, h2]
        simpa using hrec
      · have h1 : (decide (a ∉ x :: visited)) = true := by
          simp only [decide_eq_true_eq, List.mem_cons]
          rintro (h | h)
          · exact hax h
          · exact hav h
        have h2 : (decide (a ∉ visited)) = true := by simpa using hav
        rw [h1, h2]
        simp only [if_true, List.length_cons]
        omega

/-- The BFS work loop of `findConnectedComponents` (geometryParser.js:330).
The queue invariant `hq` (every queued ID occurs in `R`, the IDs of the call
site's ways and endpoint map) witnesses termination; it is maintained by
construction at both call sites.  Returns the final visited set and the
component collected by this traversal. -/
def bfsAux (wayMap : WayMap) (em : EndpointMap) (R : List Nat)
    (hemR : ∀ i ∈ emWayIds em, i ∈ R)
    (queue visited component : List Nat)
    (hq : ∀ i ∈ queue, i ∈ R) : List Nat × List Nat :=
  match queue with
  | [] => (visited, component)
  | currentId :: rest =>
    if hv : currentId ∈ visited then
      bfsAux wayMap em R hemR rest visited component
        (fun i hi => hq i (List.mem_cons_of_mem _ hi))
    else
      let visited2 := currentId :: visited
      let component2 := component ++ [currentId]
      let currentWay := getWayD wayMap currentId
      let firstNode := coordinateToKey (chainStart currentWay.coordinates)
      let lastNode := coordinateToKey (chainEnd currentWay.coordinates)
      let conns1 := (emGet em firstNode).getD []
      let conns2 := (emGet em lastNode).getD []
      let pushes :=
        (conns1.map (fun e => e.wayId)).filter (fun i => decide (i ∉ visited2)) ++
        (conns2.map (fun e => e.wayId)).filter (fun i => decide (i ∉ visited2))
      bfsAux wayMap em R hemR (rest ++ pushes) visited2 component2
        (by
          intro i hi
          rcases List.mem_append.mp hi with h | h
          · exact hq i (List.mem_cons_of_mem _ h)
          · rcases List.mem_append.mp h with h2 | h2
            · have h3 := List.mem_of_mem_filter h2
              rcases List.mem_map.mp h3 with ⟨e, he, rfl⟩
              exact hemR _ (emGetD_wayIds em _ e he)
            · have h3 := List.mem_of_mem_filter h2
              rcases List.mem_map.mp h3 with ⟨e, he, rfl⟩
              exact hemR _ (emGetD_wayIds em _ e he))
  termination_by ((R.filter (fun i => decide (i ∉ visited))).length, queue.length)
  decreasing_by
  · apply Prod.Lex.right
    simp
  · apply Prod.Lex.left
    exact length_filter_notMem_cons_lt R currentId visited (hq currentId (by simp)) hv

/-- The outer `ways.forEach` of `findConnectedComponents`
(geometryParser.js:321): skip visited ways, otherwise run a BFS from the way
and record the resulting component. -/
def componentsLoop (wayMap : WayMap) (em : EndpointMap) (R : List Nat)
    (hemR : ∀ i ∈ emWayIds em, i ∈ R) :
    (pending : List Way) → (visited : List Nat) → (acc : List (List Nat)) →
    (hp : ∀ w ∈ pending, w.id ∈ R) → List (List Nat)
  | [], _, acc, _ => acc
  | w :: rest, visited, acc, hp =>
    if w.id ∈ visited then
      componentsLoop wayMap em R hemR rest visited acc
        (fun v hv => hp v (List.mem_cons_of_mem _ hv))
    else
      let r := bfsAux wayMap em R hemR [w.id] visited []
        (by intro i hi; rcases List.mem_singleton.mp hi with rfl; exact hp w (by simp))
      componentsLoop wayMap em R hemR rest r.1 (acc ++ [r.2])
        (fun v hv => hp v (List.mem_cons_of_mem _ hv))

/-- Source `findConnectedComponents` (geometryParser.js:316): seed a BFS from
every not-yet-visited way in input order, collecting one component per
traversal. -/
def findConnectedComponents (ways : List Way) (endpointMap : EndpointMap) :
    List (List Nat) :=
  let wayMap := buildWayMap ways
  componentsLoop wayMap endpointMap
    (ways.map (fun w => w.id) ++ emWayIds endpointMap)
    (fun i hi => List.mem_append.mpr (Or.inr hi)) ways [] []
    (fun w hw => List.mem_append.mpr (Or.inl (List.mem_map.mpr ⟨w, hw, rfl⟩)))

/-- Node-degree counter used by `orderComponentIntoPath`
(geometryParser.js:377): a JS `Map` from coordinate keys to counts, modelled
insertion-ordered. -/
def degPush (m : List (Coord × Nat)) (k : Coord) : List (Coord × Nat) :=
  match m with
  | [] => [(k, 1)]
  | p :: rest => if p.1 = k then (p.1, p.2 + 1) :: rest else p :: degPush rest k

/-- The endpoint-degree map of a component: each way adds one to the degree
of its first coordinate's key, and one to its last coordinate's key when the
two keys differ. -/
def nodeDegreeOf (componentWayIds : List Nat) (wayMap : WayMap) :
    List (Coord × Nat) :=
  componentWayIds.foldl
    (fun m wayId =>
      let way := getWayD wayMap wayId
      let firstNode := coordinateToKey (chainStart way.coordinates)
      let lastNode := coordinateToKey (chainEnd way.coordinates)
      let m1 := degPush m firstNode
      if firstNode ≠ lastNode then degPush m1 lastNode else m1)
    []

/-- The terminal nodes of a component: keys of degree exactly 1
(geometryParser.js:390). -/
def terminalNodesOf (nodeDegree : List (Coord × Nat)) : List Coord :=
  (nodeDegree.filter (fun p => p.2 = 1)).map (fun p => p.1)

/-- The branching guard of `orderComponentIntoPath` (geometryParser.js:399):
more than 2 terminals, or any node of degree exactly 3. -/
def isBranching (nodeDegree : List (Coord × Nat)) : Bool :=
  2 < (terminalNodesOf nodeDegree).length || nodeDegree.any (fun p => p.2 = 3)

/-- The start-way search of `orderComponentIntoPath`
(geometryParser.js:410): the first member way one of whose endpoint keys is
a terminal, together with whether the source reverses it in place (terminal
at its end but not at its start). -/
def findStartWay (wayMap : WayMap) (terminalNodes : List Coord) :
    List Nat → Option (Nat × Bool)
  | [] => none
  | wayId :: rest =>
    let way := getWayD wayMap wayId
    let firstNode := coordinateToKey (chainStart way.coordinates)
    let lastNode := coordinateToKey (chainEnd way.coordinates)
    if firstNode ∈ terminalNodes ∨ lastNode ∈ terminalNodes then
      some (wayId, decide (lastNode ∈ terminalNodes) &&
        !decide (firstNode ∈ terminalNodes))
    else findStartWay wayMap terminalNodes rest

/-- A way with its coordinate array reversed (models the in-place
`way.coordinates = [...way.coordinates].reverse()` of
geometryParser.js:421). -/
def reversedWay (w : Way) : Way := ⟨w.id, w.tags, w.coordinates.reverse⟩

/-- The scan of the connection list at the current end node
(geometryParser.js:438): the first connection whose way is unused and a
member of this component. -/
def findNextConn (componentWayIds used : List Nat) :
    List EndpointEntry → Option Nat
  | [] => none
  | conn :: rest =>
    if conn.wayId ∉ used ∧ conn.wayId ∈ componentWayIds then some conn.wayId
    else findNextConn componentWayIds used rest

/-- The forward walk of `orderComponentIntoPath` (geometryParser.js:432):
while unused member ways remain, look up the connections at the key of the
chain's last coordinate, take the first usable one, orient it to extend
forward (appending nothing when neither end key matches, as the source
does), and mark it used; stop when no connection qualifies. -/
def walkLoop (componentWayIds : List Nat) (wayMap : WayMap)
    (endpointMap : EndpointMap) (orderedCoords : Chain) (used : List Nat) :
    Chain :=
  if h : used.length < componentWayIds.length then
    let currentEndNode := coordinateToKey (chainEnd orderedCoords)
    let connections := (emGet endpointMap currentEndNode).getD []
    match findNextConn componentWayIds used connections with
    | some nextId =>
      let nextWay := getWayD wayMap nextId
      let nextFirstNode := coordinateToKey (chainStart nextWay.coordinates)
      let nextLastNode := coordinateToKey (chainEnd nextWay.coordinates)
      let orderedCoords2 :=
        if nextFirstNode = currentEndNode then
          orderedCoords ++ nextWay.coordinates.tail
        else if nextLastNode = currentEndNode then
          orderedCoords ++ nextWay.coordinates.reverse.tail
        else orderedCoords
      walkLoop componentWayIds wayMap endpointMap orderedCoords2
        (nextId :: used)
    | none => orderedCoords
  else orderedCoords
  termination_by componentWayIds.length - used.length
  decreasing_by simp only [List.length_cons]; omega

/-- Source `orderComponentIntoPath` (geometryParser.js:370): single-way
components pass through; branching components fall back to one chain per
member way; linear chains and loops are walked into a single ordered
chain, starting (suitably oriented) from a terminal when one exists. -/
def orderComponentIntoPath (componentWayIds : List Nat) (wayMap : WayMap)
    (endpointMap : EndpointMap) : List Chain :=
  if componentWayIds.length = 1 then
    [(getWayD wayMap (componentWayIds.headD 0)).coordinates]
  else
    let nodeDegree := nodeDegreeOf componentWayIds wayMap
    if isBranching nodeDegree then
      componentWayIds.map (fun wayId => (getWayD wayMap wayId).coordinates)
    else
      let terminalNodes := terminalNodesOf nodeDegree
      let startPick :=
        if 0 < terminalNodes.length then
          findStartWay wayMap terminalNodes componentWayIds
        else none
      let currentWayId :=
        match startPick with
        | some p => p.1
        | none => componentWayIds.headD 0
      let wayMap2 :=
        match startPick with
        | some p =>
          if p.2 then wmSet wayMap p.1 (reversedWay (getWayD wayMap p.1))
          else wayMap
        | none => wayMap
      let orderedCoords := (getWayD wayMap2 currentWayId).coordinates
      [walkLoop componentWayIds wayMap2 endpointMap orderedCoords
        [currentWayId]]

/-- The bounding box produced by `calculateBounds` (boundingBox.js:11). -/
structure Bounds where
  minLat : Int
  maxLat : Int
  minLon : Int
  maxLon : Int
  width : Int
  height : Int
  deriving DecidableEq, Repr

/-- Source `calculateBounds` (boundingBox.js:11) on a flat list of
`[lon, lat]` pairs.  The source recursion over nested arrays is equivalent
to flattening first; call sites below pass the flattened list.  The source
throws on empty input; the default value here is never consulted by the
theorems. -/
def calculateBounds (points : List Coord) : Bounds :=
  match points with
  | [] => ⟨0, 0, 0, 0, 0, 0⟩
  | p :: rest =>
    let minLat := rest.foldl (fun a c => min a c.2) p.2
    let maxLat := rest.foldl (fun a c => max a c.2) p.2
    let minLon := rest.foldl (fun a c => min a c.1) p.1
    let maxLon := rest.foldl (fun a c => max a c.1) p.1
    ⟨minLat, maxLat, minLon, maxLon, maxLon - minLon, maxLat - minLat⟩

/-- IDs of normalized geometries: way/relation IDs are numbers, synthesized
component IDs are strings. -/
inductive GeomId where
  | num (n : Nat)
  | str (s : String)
  deriving DecidableEq, Repr

/-- The coordinate payload of a normalized geometry, at its three nesting
depths: a flat list of pairs (`Polygon` and `LineString` in this code), a
list of chains (`MultiLineString`), or a list of ring lists
(`MultiPolygon`). -/
inductive CoordData where
  | c1 (points : Chain)
  | c2 (lines : List Chain)
  | c3 (polys : List (List Chain))
  deriving DecidableEq, Repr

/-- The `geometry` member of a normalized geometry object: its `type` string
and `coordinates`. -/
structure GeomShape where
  type : String
  coordinates : CoordData
  deriving DecidableEq, Repr

/-- A normalized geometry object as pushed by the parser. -/
structure Geometry where
  id : GeomId
  type : String
  tags : Tags
  geometry : GeomShape
  bounds : Bounds
  sourceWayIds : Option (List Nat)
  deriving DecidableEq, Repr

/-- A warning record `{message, osmType, osmId}` (or `osmIds` for the
batch-level coalescing warning). -/
structure Warning where
  message : String
  osmType : String
  osmId : Option Nat
  osmIds : Option (List Nat)
  deriving DecidableEq, Repr

/-- The `{geometries, warnings}` result of `coalesceOpenWays` and
`parseElements`. -/
structure ParseResult where
  geometries : List Geometry
  warnings : List Warning
  deriving DecidableEq, Repr

/-- The single-way LineString geometry emitted for one-way components
(geometryParser.js:513 and 565). -/
def wayLineStringGeometry (way : Way) : Geometry :=
  { id := GeomId.num way.id
    type := "way"
    tags := way.tags
    geometry := ⟨ "LineString", CoordData.c1 way.coordinates⟩
    bounds := calculateBounds way.coordinates
    sourceWayIds := none }

/-- The geometry emitted for one connected component.  The source
duplicates this block verbatim in the grouped (geometryParser.js:510) and
ungrouped (geometryParser.js:561) branches of `coalesceOpenWays`; it is
factored here once. -/
def componentToGeometry (wayMap : WayMap) (endpointMap : EndpointMap)
    (componentWayIds : List Nat) : Geometry :=
  if componentWayIds.length = 1 then
    wayLineStringGeometry (getWayD wayMap (componentWayIds.headD 0))
  else
    let linestrings := orderComponentIntoPath componentWayIds wayMap endpointMap
    let allCoords := linestrings.foldr (fun c acc => c ++ acc) []
    let componentWays := componentWayIds.map (fun i => getWayD wayMap i)
    let aggregatedTags := aggregateTagsForComponent componentWays
    { id := GeomId.str (generateComponentId componentWayIds)
      type := "component"
      tags := aggregatedTags
      geometry :=
        if linestrings.length = 1 then
          ⟨ "LineString", CoordData.c1 (linestrings.headD [])⟩
        else ⟨ "MultiLineString", CoordData.c2 linestrings⟩
      bounds := calculateBounds allCoords
      sourceWayIds := some componentWayIds }

/-- The options object handed to `coalesceOpenWays`; `none` models an absent
property. -/
structure CoalesceOpts where
  groupByEnabled : Option Bool
  groupByTag : Option String
  deriving DecidableEq, Repr

/-- The tag value a way is grouped under: `way.tags?.[groupByTag] || ''`
(geometryParser.js:490), so both an absent tag and an empty value yield the
empty-string group. -/
def tagValueOf (w : Way) (tag : String) : String :=
  (tagLookup w.tags tag).getD ""

/-- Append a way to its tag-value group, creating the group at the end when
absent (JS `Map` insertion order, geometryParser.js:487). -/
def groupPush (m : List (String × List Way)) (k : String) (w : Way) :
    List (String × List Way) :=
  match m with
  | [] => [(k, [w])]
  | p :: rest => if p.1 = k then (p.1, p.2 ++ [w]) :: rest else p :: groupPush rest k w

/-- The grouped-mode partition of the open-ways batch by tag value
(geometryParser.js:487). -/
def partitionByTag (ways : List Way) (tag : String) : List (String × List Way) :=
  ways.foldl (fun m w => groupPush m (tagValueOf w tag) w) []

/-- Per-group pipeline of grouped coalescing (geometryParser.js:498): build
the group's endpoint map (no complexity detection), find its components, and
emit one geometry per component. -/
def processGroup (waysInGroup : List Way) : List Geometry :=
  let endpointMap := buildEndpointMap waysInGroup
  let components := findConnectedComponents waysInGroup endpointMap
  let wayMap := buildWayMap waysInGroup
  components.map (fun c => componentToGeometry wayMap endpointMap c)

/-- Source `coalesceOpenWays` (geometryParser.js:475), with the thrown
complexity error modelled as `Except.error`.  Grouped mode partitions by tag
value and runs the pipeline per group with no complexity check; ungrouped
mode runs the complexity guard, then the same component pipeline over the
whole batch. -/
def coalesceOpenWays (openWays : List Way) (options : CoalesceOpts) :
    Except JsError ParseResult :=
  let groupByEnabled := options.groupByEnabled.getD false
  let groupByTag := options.groupByTag.getD "name"
  if openWays.isEmpty then Except.ok ⟨[], []⟩
  else if groupByEnabled then
    Except.ok
      ⟨(partitionByTag openWays groupByTag).foldr
        (fun g acc => processGroup g.2 ++ acc) [], []⟩
  else
    let endpointMap := buildEndpointMap openWays
    match detectComplexity endpointMap openWays.length with
    | some e => Except.error e
    | none =>
      let components := findConnectedComponents openWays endpointMap
      let wayMap := buildWayMap openWays
      Except.ok ⟨components.map (fun c => componentToGeometry wayMap endpointMap c), []⟩

/-- A relation member: `{type, role, geometry}`. -/
structure Member where
  type : String
  role : String
  geometry : List LatLon
  deriving DecidableEq, Repr

/-- A raw Overpass element, the tagged union over node, way and relation.
Absent `tags` objects are modelled as the empty tag list, which the lookup
treats identically. -/
inductive Element where
  | node (id : Nat)
  | way (id : Nat) (tags : Tags) (geometry : List LatLon)
  | relation (id : Nat) (tags : Tags) (members : List Member)
  deriving DecidableEq, Repr

/-- The gap scan of `parseRouteRelation` (geometryParser.js:637): consecutive
member chains whose current end matches neither end of the next chain. -/
def hasGapsIn : List Chain → Bool
  | a :: b :: rest =>
    (!coordsEqual (chainEnd a) (chainStart b) &&
     !coordsEqual (chainEnd a) (chainEnd b)) || hasGapsIn (b :: rest)
  | _ => false

/-- Source `parseRouteRelation` (geometryParser.js:607): member ways are
taken in given order into a MultiLineString; missing way members reject the
relation with a warning; large member counts and gaps emit non-fatal
warnings. -/
def parseRouteRelation (id : Nat) (tags : Tags) (members : List Member) :
    Option Geometry × List Warning :=
  let wayMembers := members.filter
    (fun m => decide (m.type = "way") && !m.geometry.isEmpty)
  if wayMembers.isEmpty then
    (none,
      [⟨ "Skipped route relation " ++ toString id ++ ": No way members with geometry",
        "relation", some id, none⟩])
  else
    let sizeWarnings :=
      if 100 < wayMembers.length then
        [⟨ "Route relation " ++ toString id ++ " has " ++
            toString wayMembers.length ++ " members (may be slow to render)",
          "relation", some id, none⟩]
      else ([] : List Warning)
    let linestrings := wayMembers.map (fun m => m.geometry.map latLonToCoord)
    let gapWarnings :=
      if hasGapsIn linestrings then
        [⟨ "Route relation " ++ toString id ++ " has gaps between members",
          "relation", some id, none⟩]
      else ([] : List Warning)
    let allCoords := linestrings.foldr (fun c acc => c ++ acc) []
    (some
      { id := GeomId.num id
        type := "relation"
        tags := tags
        geometry := ⟨ "MultiLineString", CoordData.c2 linestrings⟩
        bounds := calculateBounds allCoords
        sourceWayIds := none },
      sizeWarnings ++ gapWarnings)

/-- The outer-role member chains of a multipolygon relation
(geometryParser.js:738): way members with geometry, converted to
`[lon, lat]`. -/
def outerWaysOf (members : List Member) : List Chain :=
  (members.filter (fun m =>
    decide (m.type = "way") && !m.geometry.isEmpty && decide (m.role = "outer"))).map
    (fun m => m.geometry.map latLonToCoord)

/-- The inner-role member chains of a multipolygon relation. -/
def innerWaysOf (members : List Member) : List Chain :=
  (members.filter (fun m =>
    decide (m.type = "way") && !m.geometry.isEmpty && decide (m.role = "inner"))).map
    (fun m => m.geometry.map latLonToCoord)

/-- The MultiPolygon geometry built for a multipolygon relation
(geometryParser.js:779): every merged outer ring paired with all merged
inner rings as its holes. -/
def multipolygonGeometry (id : Nat) (tags : Tags) (members : List Member) :
    Geometry :=
  let mergedOuterRings := mergeWaysIntoRings (outerWaysOf members)
  let innerWays := innerWaysOf members
  let mergedInnerRings :=
    if 0 < innerWays.length then mergeWaysIntoRings innerWays else []
  let polygons := mergedOuterRings.map (fun outer => outer :: mergedInnerRings)
  let allCoords :=
    (mergedOuterRings ++ mergedInnerRings).foldr (fun c acc => c ++ acc) []
  { id := GeomId.num id
    type := "relation"
    tags := tags
    geometry := ⟨ "MultiPolygon", CoordData.c3 polygons⟩
    bounds := calculateBounds allCoords
    sourceWayIds := none }

/-- The running state of the element loop of `parseElements`: geometries and
warnings emitted so far, and the open ways collected for coalescing. -/
structure PState where
  geometries : List Geometry
  warnings : List Warning
  openWays : List Way
  deriving DecidableEq, Repr

/-- One iteration of the `elements.forEach` classification loop of
`parseElements` (geometryParser.js:692), with every branch in source
order. -/
def processElement (st : PState) (el : Element) : PState :=
  match el with
  | Element.node id =>
    { st with warnings := st.warnings ++
        [⟨ "Skipped node " ++ toString id ++
            ": Nodes are not supported (only closed ways)",
          "node", some id, none⟩] }
  | Element.relation id tags members =>
    if tagLookup tags "type" = some "route" then
      match parseRouteRelation id tags members with
      | (some g, ws) =>
        { st with geometries := st.geometries ++ [g],
                  warnings := st.warnings ++ ws }
      | (none, ws) => { st with warnings := st.warnings ++ ws }
    else if tagLookup tags "type" ≠ some "multipolygon" then
      let tval :=
        match tagLookup tags "type" with
        | some t => if t = "" then "undefined" else t
        | none => "undefined"
      { st with warnings := st.warnings ++
          [⟨ "Skipped relation " ++ toString id ++
              ": Not a multipolygon or route (type=\"" ++ tval ++ "\")",
            "relation", some id, none⟩] }
    else if members.isEmpty then
      { st with warnings := st.warnings ++
          [⟨ "Skipped relation " ++ toString id ++ ": No members",
            "relation", some id, none⟩] }
    else if (outerWaysOf members).isEmpty then
      { st with warnings := st.warnings ++
          [⟨ "Skipped relation " ++ toString id ++ ": No outer ways",
            "relation", some id, none⟩] }
    else if (mergeWaysIntoRings (outerWaysOf members)).isEmpty then
      { st with warnings := st.warnings ++
          [⟨ "Skipped relation " ++ toString id ++
              ": Outer ways cannot be merged into closed rings",
            "relation", some id, none⟩] }
    else
      { st with geometries := st.geometries ++ [multipolygonGeometry id tags members] }
  | Element.way id tags geometry =>
    if geometry.isEmpty then
      { st with warnings := st.warnings ++
          [⟨ "Skipped way " ++ toString id ++ ": No geometry data",
            "way", some id, none⟩] }
    else
      let coordinates := geometry.map latLonToCoord
      if isClosed geometry && isArea tags then
        { st with geometries := st.geometries ++
            [{ id := GeomId.num id
               type := "way"
               tags := tags
               geometry := ⟨ "Polygon", CoordData.c1 coordinates⟩
               bounds := calculateBounds coordinates
               sourceWayIds := none }] }
      else
        { st with openWays := st.openWays ++ [⟨id, tags, coordinates⟩] }

/-- The whole element classification pass of `parseElements`. -/
def elementPass (elements : List Element) : PState :=
  elements.foldl processElement ⟨[], [], []⟩

/-- The fall-back geometries of the coalescing `catch` block
(geometryParser.js:869): each open way as its own LineString. -/
def fallbackGeometries (openWays : List Way) : List Geometry :=
  openWays.map wayLineStringGeometry

/-- The warning of the coalescing `catch` block (geometryParser.js:862):
the failure message together with the IDs of every affected way. -/
def coalesceFailWarning (openWays : List Way) (e : JsError) : Warning :=
  ⟨ "Failed to coalesce " ++ toString openWays.length ++ " open ways: " ++
      e.message,
    "way", none, some (openWays.map (fun w => w.id))⟩

/-- The `try`/`catch` around coalescing in `parseElements`
(geometryParser.js:851): complexity errors are re-thrown; every other error
becomes one warning plus the unmerged fall-back LineStrings. -/
def recoverCoalesce (openWays : List Way) (res : Except JsError ParseResult) :
    Except JsError ParseResult :=
  match res with
  | Except.ok r => Except.ok r
  | Except.error e =>
    if e.type = "NETWORK_TOO_COMPLEX" then Except.error e
    else Except.ok ⟨fallbackGeometries openWays, [coalesceFailWarning openWays e]⟩

/-- Normalization `options.groupByTag || 'name'` (geometryParser.js:686):
absent and empty-string values fall back to `name`. -/
def normGroupByTag : Option String → String
  | none => "name"
  | some t => if t = "" then "name" else t

/-- Source `parseElements` (geometryParser.js:679), parameterized by the
coalescing function so that the `try`/`catch` semantics can be stated for
an arbitrary raised error; `parseElements` below instantiates it with
`coalesceOpenWays`. -/
def parseElementsCore
    (coalesce : List Way → CoalesceOpts → Except JsError ParseResult)
    (elements : List Element) (options : CoalesceOpts) :
    Except JsError ParseResult :=
  let groupByEnabled := options.groupByEnabled.getD false
  let groupByTag := normGroupByTag options.groupByTag
  if elements.isEmpty then Except.ok ⟨[], []⟩
  else
    let st := elementPass elements
    if st.openWays.isEmpty then Except.ok ⟨st.geometries, st.warnings⟩
    else
      match recoverCoalesce st.openWays
        (coalesce st.openWays ⟨some groupByEnabled, some groupByTag⟩) with
      | Except.error e => Except.error e
      | Except.ok r =>
        Except.ok ⟨st.geometries ++ r.geometries, st.warnings ++ r.warnings⟩

/-- The exported `parseElements` (geometryParser.js:679). -/
def parseElements (elements : List Element) (options : CoalesceOpts) :
    Except JsError ParseResult :=
  parseElementsCore coalesceOpenWays elements options

theorem tagLookup_some_ne_nil (tags : Tags) (k v : String)
    (h : tagLookup tags k = some v) : tags ≠ [] := by
  intro hnil
  subst hnil
  simp [tagLookup] at h

theorem isEmpty_false_of_ne_nil {α : Type} {l : List α} (h : l ≠ []) :
    l.isEmpty = false := by
  cases l with
  | nil => exact absurd rfl h
  | cons a rest => rfl

/-- Claim C8 (corrected), counterexample: the key `building` is present with
the empty-string value, which the claim says yields `true` for every value
of the key, yet `isArea` answers `false` because the source tests the value
with JS truthiness (`if (tags[key])`). -/
theorem claim8_counterexample : isArea [( "building", "")] = false := by rfl

/-- Claim C8 as amended: `isArea` applies its rules in order with first
match winning — `area=yes` gives `true` and `area=no` gives `false` before
any other rule; otherwise the presence of any key of the fixed key set with
a non-empty value gives `true`; the empty tag mapping gives `false`.  The
function is a plain Lean function, hence pure and total by construction. -/
theorem claim8_isArea_rules :
    (∀ tags : Tags, tagLookup tags "area" = some "yes" → isArea tags = true) ∧
    (∀ tags : Tags, tagLookup tags "area" = some "no" → isArea tags = false) ∧
    isArea [] = false ∧
    (∀ tags : Tags, tagLookup tags "area" ≠ some "no" →
      (∃ k ∈ areaKeys, ∃ v, tagLookup tags k = some v ∧ v ≠ "") →
      isArea tags = true) := by
  refine ⟨?_, ?_, by rfl, ?_⟩
  · intro tags h
    have hne := tagLookup_some_ne_nil tags _ _ h
    rw [isArea, if_neg (by simp [isEmpty_false_of_ne_nil hne]), if_pos h]
  · intro tags h
    have hne := tagLookup_some_ne_nil tags _ _ h
    rw [isArea, if_neg (by simp [isEmpty_false_of_ne_nil hne]),
      if_neg (by simp [h]), if_pos h]
  · intro tags hno ⟨k, hk, v, hv, hvne⟩
    have hne := tagLookup_some_ne_nil tags _ _ hv
    have hany : areaKeys.any (fun k => truthy (tagLookup tags k)) = true := by
      rw [List.any_eq_true]
      exact ⟨k, hk, by rw [hv]; simpa [truthy] using hvne⟩
    by_cases hyes : tagLookup tags "area" = some "yes"
    · rw [isArea, if_neg (by simp [isEmpty_false_of_ne_nil hne]), if_pos hyes]
    · rw [isArea, if_neg (by simp [isEmpty_false_of_ne_nil hne]),
        if_neg hyes, if_neg hno, if_pos hany]

/-- Witness for C8: the four rules evaluated at concrete tag bags through
the theorem. -/
theorem claim8_witness :
    isArea [( "area", "yes")] = true ∧
    isArea [( "area", "no"), ( "building", "x")] = false ∧
    isArea [] = false ∧
    isArea [( "landuse", "forest")] = true := by
  refine ⟨?_, ?_, claim8_isArea_rules.2.2.1, ?_⟩
  · exact claim8_isArea_rules.1 _ (by rfl)
  · exact claim8_isArea_rules.2.1 _ (by rfl)
  · exact claim8_isArea_rules.2.2.2 _ (by decide)
      ⟨ "landuse", by decide, "forest", by rfl, by decide⟩

theorem insertConnDesc_perm (x : ComplexNode) (l : List ComplexNode) :
    (insertConnDesc x l).Perm (x :: l) := by
  induction l with
  | nil => simp [insertConnDesc]
  | cons y rest ih =>
    rw [insertConnDesc]
    split
    · exact List.Perm.refl _
    · exact List.Perm.trans (List.Perm.cons y ih) (List.Perm.swap x y rest)

theorem sortConnDesc_perm (l : List ComplexNode) :
    (sortConnDesc l).Perm l := by
  induction l with
  | nil => simp [sortConnDesc]
  | cons x rest ih =>
    rw [sortConnDesc]
    exact (insertConnDesc_perm x (sortConnDesc rest)).trans (List.Perm.cons x ih)

theorem insertConnDesc_pairwise (x : ComplexNode) (l : List ComplexNode)
    (h : l.Pairwise (fun a b => b.connectionCount ≤ a.connectionCount)) :
    (insertConnDesc x l).Pairwise
      (fun a b => b.connectionCount ≤ a.connectionCount) := by
  induction l with
  | nil => simp [insertConnDesc]
  | cons y rest ih =>
    rw [insertConnDesc]
    rcases List.pairwise_cons.mp h with ⟨hy, hrest⟩
    split
    next hlt =>
      rw [List.pairwise_cons]
      constructor
      · intro z hz
        rcases List.mem_cons.mp hz with rfl | hz2
        · omega
        · have := hy z hz2
          omega
      · exact h
    next hge =>
      rw [List.pairwise_cons]
      constructor
      · intro z hz
        have hz3 := (insertConnDesc_perm x rest).mem_iff.mp hz
        rcases List.mem_cons.mp hz3 with rfl | hz4
        · omega
        · exact hy z hz4
      · exact ih hrest

theorem sortConnDesc_pairwise (l : List ComplexNode) :
    (sortConnDesc l).Pairwise
      (fun a b => b.connectionCount ≤ a.connectionCount) := by
  induction l with
  | nil => simp [sortConnDesc]
  | cons x rest ih =>
    rw [sortConnDesc]
    exact insertConnDesc_pairwise x (sortConnDesc rest) ih

theorem mem_complexNodesOf (endpointMap : EndpointMap) (n : ComplexNode)
    (h : n ∈ complexNodesOf endpointMap) :
    ∃ p ∈ endpointMap, n.coords = p.1 ∧ n.connectionCount = p.2.length ∧
      3 < p.2.length ∧ n.wayIds = p.2.map (fun c => c.wayId) := by
  rcases List.mem_map.mp h with ⟨p, hp, rfl⟩
  have hmem := List.mem_of_mem_filter hp
  have hlen := List.of_mem_filter hp
  simp only [decide_eq_true_eq] at hlen
  exact ⟨p, hmem, rfl, rfl, hlen, rfl⟩

theorem complexNodesOf_ne_nil (endpointMap : EndpointMap)
    (h : ∃ p ∈ endpointMap, 3 < p.2.length) :
    complexNodesOf endpointMap ≠ [] := by
  rcases h with ⟨p, hp, hlen⟩
  have : (⟨p.1, p.2.length, p.2.map (fun c => c.wayId)⟩ : ComplexNode) ∈
      complexNodesOf endpointMap := by
    apply List.mem_map.mpr
    exact ⟨p, List.mem_filter.mpr ⟨hp, by simpa using hlen⟩, rfl⟩
  intro hnil
  rw [hnil] at this
  cases this

theorem complexNodesOf_eq_nil (endpointMap : EndpointMap)
    (h : ∀ p ∈ endpointMap, p.2.length ≤ 3) :
    complexNodesOf endpointMap = [] := by
  rw [complexNodesOf, List.map_eq_nil_iff]
  rw [List.filter_eq_nil_iff]
  intro p hp
  simpa using Nat.not_lt.mpr (h p hp)

/-- Claim C1: the complexity guard.  Below 1000 ways `detectComplexity`
never raises; at 1000 or more ways it raises exactly when some coordinate
key is touched by more than 3 ways, and the error then carries the
`NETWORK_TOO_COMPLEX` type, a positive `complexNodeCount`, the threshold 3,
and the top 5 most-connected nodes — sorted most-connected first, each
carrying its coordinates, connection count and contributing way IDs. -/
theorem claim1_complexity_guard :
    ∀ (endpointMap : EndpointMap) (wayCount : Nat),
      (wayCount ≤ 999 → detectComplexity endpointMap wayCount = none) ∧
      (1000 ≤ wayCount → (∀ p ∈ endpointMap, p.2.length ≤ 3) →
        detectComplexity endpointMap wayCount = none) ∧
      (1000 ≤ wayCount → (∃ p ∈ endpointMap, 3 < p.2.length) →
        ∃ e d, detectComplexity endpointMap wayCount = some e ∧
          e.type = "NETWORK_TOO_COMPLEX" ∧ e.details = some d ∧
          1 ≤ d.complexNodeCount ∧ d.threshold = 3 ∧
          d.topComplexNodes = (sortConnDesc (complexNodesOf endpointMap)).take 5 ∧
          d.topComplexNodes.length ≤ 5 ∧
          d.topComplexNodes.Pairwise
            (fun a b => b.connectionCount ≤ a.connectionCount) ∧
          (∀ n ∈ d.topComplexNodes, ∃ p ∈ endpointMap,
            n.coords = p.1 ∧ n.connectionCount = p.2.length ∧
            3 < p.2.length ∧ n.wayIds = p.2.map (fun c => c.wayId))) := by
  intro endpointMap wayCount
  refine ⟨?_, ?_, ?_⟩
  · intro h
    rw [detectComplexity, if_pos (by omega)]
  · intro h1 h2
    rw [detectComplexity, if_neg (by omega)]
    simp only [complexNodesOf_eq_nil endpointMap h2]
    rfl
  · intro h1 h2
    have hne := complexNodesOf_ne_nil endpointMap h2
    have hpos : (complexNodesOf endpointMap).length > 0 :=
      List.length_pos.mpr hne
    have hlt : ¬ wayCount < 1000 := by omega
    simp only [detectComplexity, if_neg hlt, if_pos hpos]
    refine ⟨_, _, rfl, rfl, rfl, ?_, rfl, rfl, ?_, ?_, ?_⟩
    · simpa using hpos
    · exact le_trans (List.length_take_le 5 _) (le_refl 5)
    · exact (sortConnDesc_pairwise (complexNodesOf endpointMap)).sublist
        (List.take_sublist 5 _)
    · intro n hn
      have hmem : n ∈ sortConnDesc (complexNodesOf endpointMap) :=
        List.mem_of_mem_take hn
      have hmem2 : n ∈ complexNodesOf endpointMap :=
        (sortConnDesc_perm _).mem_iff.mp hmem
      exact mem_complexNodesOf endpointMap n hmem2

/-- Witness for C1: the three branches of the guard evaluated at concrete
endpoint maps — 999 ways, 1000 ways with a node of degree 3, and 1000 ways
with a node of degree 4. -/
theorem claim1_witness :
    detectComplexity
      [((0, 0), [⟨1, "start"⟩, ⟨2, "start"⟩, ⟨3, "start"⟩, ⟨4, "start"⟩])]
      999 = none ∧
    detectComplexity [((0, 0), [⟨1, "start"⟩, ⟨2, "start"⟩, ⟨3, "start"⟩])]
      1000 = none ∧
    ∃ e d, detectComplexity
        [((0, 0), [⟨1, "start"⟩, ⟨2, "start"⟩, ⟨3, "start"⟩, ⟨4, "start"⟩])]
        1000 = some e ∧
      e.type = "NETWORK_TOO_COMPLEX" ∧ e.details = some d ∧
      1 ≤ d.complexNodeCount := by
  refine ⟨(claim1_complexity_guard _ _).1 (by omega),
    (claim1_complexity_guard _ _).2.1 (by omega) (by decide), ?_⟩
  obtain ⟨e, d, h1, h2, h3, h4, -⟩ :=
    (claim1_complexity_guard
      [((0, 0), [⟨1, "start"⟩, ⟨2, "start"⟩, ⟨3, "start"⟩, ⟨4, "start"⟩])]
      1000).2.2 (by omega)
      ⟨((0, 0), [⟨1, "start"⟩, ⟨2, "start"⟩, ⟨3, "start"⟩, ⟨4, "start"⟩]),
        by simp, by decide⟩
  exact ⟨e, d, h1, h2, h3, h4⟩

/-- Claim C5: for every multi-way component whose endpoint-degree map shows
more than 2 terminal nodes (degree 1) or any node of degree exactly 3,
`orderComponentIntoPath` performs no merging and returns each member way's
coordinates as its own chain. -/
theorem claim5_branching_components :
    ∀ (componentWayIds : List Nat) (wayMap : WayMap)
      (endpointMap : EndpointMap),
      2 ≤ componentWayIds.length →
      (2 < (terminalNodesOf (nodeDegreeOf componentWayIds wayMap)).length ∨
        ∃ p ∈ nodeDegreeOf componentWayIds wayMap, p.2 = 3) →
      orderComponentIntoPath componentWayIds wayMap endpointMap =
        componentWayIds.map (fun wayId => (getWayD wayMap wayId).coordinates) := by
  intro ids wayMap em hlen hcond
  have h1 : ¬ ids.length = 1 := by omega
  have hb : isBranching (nodeDegreeOf ids wayMap) = true := by
    rw [isBranching, Bool.or_eq_true]
    rcases hcond with h | ⟨p, hp, hp3⟩
    · exact Or.inl (by simpa using h)
    · exact Or.inr (List.any_eq_true.mpr ⟨p, hp, by simp [hp3]⟩)
  simp only [orderComponentIntoPath, if_neg h1, hb, if_true]

/-- Witness for C5, the Y-branch of Scenario E: three open ways all ending
at the shared coordinate `(5, 5)` come back as three separate chains. -/
theorem claim5_witness :
    orderComponentIntoPath [1, 2, 3]
      (buildWayMap
        [⟨1, [], [(0, 0), (5, 5)]⟩, ⟨2, [], [(1, 0), (5, 5)]⟩,
         ⟨3, [], [(2, 0), (5, 5)]⟩])
      (buildEndpointMap
        [⟨1, [], [(0, 0), (5, 5)]⟩, ⟨2, [], [(1, 0), (5, 5)]⟩,
         ⟨3, [], [(2, 0), (5, 5)]⟩]) =
      [[(0, 0), (5, 5)], [(1, 0), (5, 5)], [(2, 0), (5, 5)]] := by
  rw [claim5_branching_components _ _ _ (by decide) (Or.inl (by decide))]
  rfl

theorem coalesce_ungrouped_tag_irrelevant (ways : List Way)
    (a b : Option String) :
    coalesceOpenWays ways ⟨some false, a⟩ =
      coalesceOpenWays ways ⟨some false, b⟩ := by
  simp [coalesceOpenWays]

/-- Claim C10: grouped coalescing is gated solely on `groupByEnabled` — with
the option absent or false, `parseElements` runs the ungrouped pipeline and
`groupByTag` is ignored entirely; with it true but no tag given, the
partition key defaults to the tag `name`; and in ungrouped mode the
complexity guard is exactly the error source of the coalescing step. -/
theorem claim10_grouping_gate :
    (∀ (elements : List Element) (t1 t2 : Option String),
      parseElements elements ⟨none, t1⟩ =
        parseElements elements ⟨some false, t2⟩) ∧
    (∀ elements : List Element,
      parseElements elements ⟨some true, none⟩ =
        parseElements elements ⟨some true, some "name"⟩) ∧
    (∀ (ways : List Way) (t : Option String) (e : JsError),
      coalesceOpenWays ways ⟨some false, t⟩ = Except.error e ↔
        ways ≠ [] ∧
          detectComplexity (buildEndpointMap ways) ways.length = some e) := by
  refine ⟨?_, ?_, ?_⟩
  · intro elements t1 t2
    simp only [parseElements, parseElementsCore, Option.getD_none, Option.getD_some]
    rw [coalesce_ungrouped_tag_irrelevant (elementPass elements).openWays
      (some (normGroupByTag t1)) (some (normGroupByTag t2))]
  · intro elements
    rfl
  · intro ways t e
    cases ways with
    | nil => simp [coalesceOpenWays]
    | cons w ws =>
      simp only [coalesceOpenWays, Option.getD_some, List.isEmpty_cons,
        Bool.false_eq_true, if_false]
      cases hd : detectComplexity (buildEndpointMap (w :: ws)) (w :: ws).length with
      | none => simp
      | some e2 => simp

/-- Witness for C10: the gate evaluated on a one-way input — disabled
grouping ignores the tag, and the ungrouped error condition is equivalent
to the guard's verdict. -/
theorem claim10_witness :
    parseElements [Element.way 1 [] [⟨0, 0⟩, ⟨1, 1⟩]] ⟨none, some "ref"⟩ =
      parseElements [Element.way 1 [] [⟨0, 0⟩, ⟨1, 1⟩]] ⟨some false, some "name"⟩ ∧
    ¬ (coalesceOpenWays [⟨1, [], [(0, 0), (1, 1)]⟩] ⟨some false, none⟩ =
        Except.error
          ⟨ "NETWORK_TOO_COMPLEX", "", none⟩) := by
  constructor
  · exact claim10_grouping_gate.1 [Element.way 1 [] [⟨0, 0⟩, ⟨1, 1⟩]]
      (some "ref") (some "name")
  · intro h
    have h2 := (claim10_grouping_gate.2.2 [⟨1, [], [(0, 0), (1, 1)]⟩] none
      ⟨ "NETWORK_TOO_COMPLEX", "", none⟩).mp h
    have h3 := h2.2
    revert h3
    decide

theorem isClosed_length (geometry : List LatLon) (h : isClosed geometry = true) :
    3 ≤ geometry.length := by
  rw [isClosed] at h
  by_cases hlt : geometry.length < 3
  · rw [if_pos hlt] at h; cases h
  · omega

/-- Claim C9 (corrected), counterexample: a closed `building` way comes out
of `parseElements` as a Polygon whose `coordinates` are the flat ring — a
bare list of `[lon, lat]` pairs, not the GeoJSON nesting with one extra list
level around the ring. -/
theorem claim9_counterexample :
    parseElements
        [Element.way 1 [( "building", "yes")]
          [⟨0, 0⟩, ⟨0, 1⟩, ⟨1, 1⟩, ⟨0, 0⟩]] ⟨none, none⟩ =
      Except.ok
        ⟨[{ id := GeomId.num 1
            type := "way"
            tags := [( "building", "yes")]
            geometry := ⟨ "Polygon", CoordData.c1 [(0, 0), (1, 0), (1, 1), (0, 0)]⟩
            bounds := ⟨0, 1, 0, 1, 1, 1⟩
            sourceWayIds := none }], []⟩ ∧
    CoordData.c1 [((0 : Int), (0 : Int)), (1, 0), (1, 1), (0, 0)] ≠
      CoordData.c2 [[(0, 0), (1, 0), (1, 1), (0, 0)]] := by
  exact ⟨by rfl, by decide⟩

/-- Claim C9 as amended: every closed way whose tags classify it as an area
is emitted by the element pass as a standalone Polygon whose `coordinates`
are the converted ring itself — a flat list of `[lon, lat]` pairs with no
extra nesting level — and such a way never enters the open-ways coalescing
batch. -/
theorem claim9_closed_area_polygon :
    ∀ (st : PState) (id : Nat) (tags : Tags) (geometry : List LatLon),
      isClosed geometry = true → isArea tags = true →
      processElement st (Element.way id tags geometry) =
        { st with geometries := st.geometries ++
            [{ id := GeomId.num id
               type := "way"
               tags := tags
               geometry := ⟨ "Polygon", CoordData.c1 (geometry.map latLonToCoord)⟩
               bounds := calculateBounds (geometry.map latLonToCoord)
               sourceWayIds := none }] } ∧
      (processElement st (Element.way id tags geometry)).openWays =
        st.openWays := by
  intro st id tags geometry hclosed harea
  have hlen := isClosed_length geometry hclosed
  have hne : geometry.isEmpty = false := by
    cases geometry with
    | nil => simp at hlen
    | cons p rest => rfl
  have hmain : processElement st (Element.way id tags geometry) =
      { st with geometries := st.geometries ++
          [{ id := GeomId.num id
             type := "way"
             tags := tags
             geometry := ⟨ "Polygon", CoordData.c1 (geometry.map latLonToCoord)⟩
             bounds := calculateBounds (geometry.map latLonToCoord)
             sourceWayIds := none }] } := by
    simp only [processElement, hne, Bool.false_eq_true, if_false, hclosed,
      harea, Bool.and_self, if_true]
  exact ⟨hmain, by rw [hmain]⟩

/-- Witness for C9: a concrete closed `building` square through the amended
theorem. -/
theorem claim9_witness :
    processElement ⟨[], [], []⟩
      (Element.way 2 [( "building", "church")]
        [⟨0, 0⟩, ⟨0, 2⟩, ⟨2, 2⟩, ⟨0, 0⟩]) =
      ⟨[{ id := GeomId.num 2
          type := "way"
          tags := [( "building", "church")]
          geometry := ⟨ "Polygon", CoordData.c1 [(0, 0), (2, 0), (2, 2), (0, 0)]⟩
          bounds := ⟨0, 2, 0, 2, 2, 2⟩
          sourceWayIds := none }], [], []⟩ := by
  rw [(claim9_closed_area_polygon ⟨[], [], []⟩ 2 [( "building", "church")]
    [⟨0, 0⟩, ⟨0, 2⟩, ⟨2, 2⟩, ⟨0, 0⟩] (by rfl) (by rfl)).1]
  rfl

theorem mergeInner_ite (members : List Member) :
    (if 0 < (innerWaysOf members).length then
        mergeWaysIntoRings (innerWaysOf members)
      else []) = mergeWaysIntoRings (innerWaysOf members) := by
  split
  · rfl
  · next h =>
    have h0 : innerWaysOf members = [] := by
      cases hi : innerWaysOf members with
      | nil => rfl
      | cons a rest => rw [hi] at h; simp at h
    rw [h0]
    rfl

theorem outerWaysOf_members_ne_nil (members : List Member)
    (h : outerWaysOf members ≠ []) : members ≠ [] := by
  intro hnil
  subst hnil
  exact h rfl

/-- Claim C4: a multipolygon relation whose outer ways merge into at least
one closed ring is emitted as one MultiPolygon pairing every merged outer
ring with all merged inner rings as holes (no inner-to-outer matching), and
inner ways that fail to merge are dropped with no warning and without
rejecting the relation. -/
theorem claim4_multipolygon_assembly :
    ∀ (st : PState) (id : Nat) (tags : Tags) (members : List Member),
      tagLookup tags "type" = some "multipolygon" →
      mergeWaysIntoRings (outerWaysOf members) ≠ [] →
      processElement st (Element.relation id tags members) =
        { st with geometries :=
            st.geometries ++ [multipolygonGeometry id tags members] } ∧
      (multipolygonGeometry id tags members).geometry =
        ⟨ "MultiPolygon",
          CoordData.c3 ((mergeWaysIntoRings (outerWaysOf members)).map
            (fun outer => outer :: mergeWaysIntoRings (innerWaysOf members)))⟩ ∧
      (processElement st (Element.relation id tags members)).warnings =
        st.warnings := by
  intro st id tags members hmp hmerge
  have houter : outerWaysOf members ≠ [] := by
    intro h0
    rw [h0] at hmerge
    exact hmerge rfl
  have hmem := outerWaysOf_members_ne_nil members houter
  have hmain : processElement st (Element.relation id tags members) =
      { st with geometries :=
          st.geometries ++ [multipolygonGeometry id tags members] } := by
    simp only [processElement, hmp]
    rw [if_neg (by simp), if_neg (by simp),
      if_neg (by simp [isEmpty_false_of_ne_nil hmem]),
      if_neg (by simp [isEmpty_false_of_ne_nil houter]),
      if_neg (by simp [isEmpty_false_of_ne_nil hmerge])]
  refine ⟨hmain, ?_, by rw [hmain]⟩
  rw [multipolygonGeometry]
  simp only [mergeInner_ite]

/-- Witness for C4: a concrete multipolygon relation with one closed outer
square and one closed inner triangle. -/
theorem claim4_witness :
    (processElement ⟨[], [], []⟩
        (Element.relation 9 [( "type", "multipolygon")]
          [⟨ "way", "outer", [⟨0, 0⟩, ⟨0, 3⟩, ⟨3, 3⟩, ⟨0, 0⟩]⟩,
           ⟨ "way", "inner", [⟨1, 1⟩, ⟨1, 2⟩, ⟨2, 2⟩, ⟨1, 1⟩]⟩])).geometries =
      [multipolygonGeometry 9 [( "type", "multipolygon")]
        [⟨ "way", "outer", [⟨0, 0⟩, ⟨0, 3⟩, ⟨3, 3⟩, ⟨0, 0⟩]⟩,
         ⟨ "way", "inner", [⟨1, 1⟩, ⟨1, 2⟩, ⟨2, 2⟩, ⟨1, 1⟩]⟩]] ∧
    (multipolygonGeometry 9 [( "type", "multipolygon")]
        [⟨ "way", "outer", [⟨0, 0⟩, ⟨0, 3⟩, ⟨3, 3⟩, ⟨0, 0⟩]⟩,
         ⟨ "way", "inner", [⟨1, 1⟩, ⟨1, 2⟩, ⟨2, 2⟩, ⟨1, 1⟩]⟩]).geometry =
      ⟨ "MultiPolygon",
        CoordData.c3
          [[[(0, 0), (3, 0), (3, 3), (0, 0)],
            [(1, 1), (2, 1), (2, 2), (1, 1)]]]⟩ := by
  have h := claim4_multipolygon_assembly ⟨[], [], []⟩ 9
    [( "type", "multipolygon")]
    [⟨ "way", "outer", [⟨0, 0⟩, ⟨0, 3⟩, ⟨3, 3⟩, ⟨0, 0⟩]⟩,
     ⟨ "way", "inner", [⟨1, 1⟩, ⟨1, 2⟩, ⟨2, 2⟩, ⟨1, 1⟩]⟩]
    (by rfl) (by decide)
  constructor
  · rw [h.1]
    rfl
  · rw [h.2.1]
    rfl

theorem elementPass_nil : elementPass [] = ⟨[], [], []⟩ := rfl

/-- Claim C2: exception handling around open-ways coalescing.  For any
coalescing function that raises an error on the collected batch, a
`NETWORK_TOO_COMPLEX` error propagates out of the pipeline uncaught, and
any other error is caught and converted into one warning naming the
affected way IDs while every open way of the batch is emitted as its own
unmerged LineString; `parseElements` is the instantiation of this pipeline
with `coalesceOpenWays`. -/
theorem claim2_coalesce_failure :
    (∀ (coalesce : List Way → CoalesceOpts → Except JsError ParseResult)
      (elements : List Element) (options : CoalesceOpts) (e : JsError),
      (elementPass elements).openWays ≠ [] →
      coalesce (elementPass elements).openWays
        ⟨some (options.groupByEnabled.getD false),
         some (normGroupByTag options.groupByTag)⟩ = Except.error e →
      (e.type = "NETWORK_TOO_COMPLEX" →
        parseElementsCore coalesce elements options = Except.error e) ∧
      (e.type ≠ "NETWORK_TOO_COMPLEX" →
        parseElementsCore coalesce elements options = Except.ok
          ⟨(elementPass elements).geometries ++
              fallbackGeometries (elementPass elements).openWays,
            (elementPass elements).warnings ++
              [coalesceFailWarning (elementPass elements).openWays e]⟩)) ∧
    (∀ (elements : List Element) (options : CoalesceOpts),
      parseElements elements options =
        parseElementsCore coalesceOpenWays elements options) := by
  constructor
  · intro coalesce elements options e how hcoal
    have helems : ¬ elements.isEmpty = true := by
      intro h
      cases elements with
      | nil => exact how (by rw [elementPass_nil])
      | cons a rest => simp at h
    have hopen : ¬ (elementPass elements).openWays.isEmpty = true := by
      simpa [List.isEmpty_iff] using how
    constructor
    · intro htype
      simp only [parseElementsCore, if_neg helems, if_neg hopen, hcoal,
        recoverCoalesce, htype, if_pos]
    · intro htype
      simp only [parseElementsCore, if_neg helems, if_neg hopen, hcoal,
        recoverCoalesce, if_neg htype]
  · intro elements options
    rfl

/-- Witness for C2: a one-way batch run against one coalescer that raises a
`TypeError`-like error (caught, fallback emitted) and one that raises a
complexity error (propagated). -/
theorem claim2_witness :
    parseElementsCore (fun _ _ => Except.error ⟨ "TypeError", "boom", none⟩)
        [Element.way 4 [] [⟨0, 0⟩, ⟨1, 1⟩]] ⟨none, none⟩ =
      Except.ok
        ⟨[wayLineStringGeometry ⟨4, [], [(0, 0), (1, 1)]⟩],
          [⟨ "Failed to coalesce 1 open ways: boom", "way", none, some [4]⟩]⟩ ∧
    parseElementsCore
        (fun _ _ => Except.error ⟨ "NETWORK_TOO_COMPLEX", "dense", none⟩)
        [Element.way 4 [] [⟨0, 0⟩, ⟨1, 1⟩]] ⟨none, none⟩ =
      Except.error ⟨ "NETWORK_TOO_COMPLEX", "dense", none⟩ := by
  constructor
  · have h := (claim2_coalesce_failure.1
      (fun _ _ => Except.error ⟨ "TypeError", "boom", none⟩)
      [Element.way 4 [] [⟨0, 0⟩, ⟨1, 1⟩]] ⟨none, none⟩
      ⟨ "TypeError", "boom", none⟩ (by decide) rfl).2 (by decide)
    rw [h]
    rfl
  · exact (claim2_coalesce_failure.1
      (fun _ _ => Except.error ⟨ "NETWORK_TOO_COMPLEX", "dense", none⟩)
      [Element.way 4 [] [⟨0, 0⟩, ⟨1, 1⟩]] ⟨none, none⟩
      ⟨ "NETWORK_TOO_COMPLEX", "dense", none⟩ (by decide) rfl).1 rfl

theorem partitionByTag_nil (tag : String) : partitionByTag [] tag = [] := rfl

/-- The flattening of a tag-value partition back to its ways. -/
def flattenGroups (m : List (String × List Way)) : List Way :=
  m.foldr (fun g acc => g.2 ++ acc) []

theorem flattenGroups_cons (p : String × List Way)
    (m : List (String × List Way)) :
    flattenGroups (p :: m) = p.2 ++ flattenGroups m := rfl

theorem flattenGroups_groupPush (m : List (String × List Way)) (k : String)
    (w : Way) :
    (flattenGroups (groupPush m k w)).Perm (flattenGroups m ++ [w]) := by
  induction m with
  | nil => simp [flattenGroups, groupPush]
  | cons p rest ih =>
    rw [groupPush]
    split
    · rw [flattenGroups_cons, flattenGroups_cons]
      simp only [List.append_assoc]
      exact List.Perm.append_left p.2 List.perm_append_comm
    · rw [flattenGroups_cons, flattenGroups_cons]
      simp only [List.append_assoc]
      refine List.Perm.append_left p.2 ?_
      simpa using ih

theorem flattenGroups_partition (ways : List Way) (tag : String) :
    ∀ m : List (String × List Way),
      (flattenGroups (ways.foldl (fun m w => groupPush m (tagValueOf w tag) w) m)).Perm
        (flattenGroups m ++ ways) := by
  induction ways with
  | nil => intro m; simp
  | cons w rest ih =>
    intro m
    rw [List.foldl_cons]
    have h1 := ih (groupPush m (tagValueOf w tag) w)
    have h2 : (flattenGroups (groupPush m (tagValueOf w tag) w) ++ rest).Perm
        ((flattenGroups m ++ [w]) ++ rest) :=
      (flattenGroups_groupPush m (tagValueOf w tag) w).append_right rest
    have h3 : (flattenGroups m ++ [w]) ++ rest =
        flattenGroups m ++ (w :: rest) := by simp
    rw [h3] at h2
    exact h1.trans h2

theorem groupPush_key_correct (m : List (String × List Way)) (tag : String)
    (w : Way)
    (hm : ∀ p ∈ m, ∀ v ∈ p.2, tagValueOf v tag = p.1) :
    ∀ p ∈ groupPush m (tagValueOf w tag) w, ∀ v ∈ p.2,
      tagValueOf v tag = p.1 := by
  induction m with
  | nil =>
    intro p hp v hv
    rw [groupPush] at hp
    rcases List.mem_singleton.mp hp with rfl
    rcases List.mem_singleton.mp hv with rfl
    rfl
  | cons q rest ih =>
    intro p hp v hv
    rw [groupPush] at hp
    split at hp
    next heq =>
      rcases List.mem_cons.mp hp with rfl | hp2
      · rcases List.mem_append.mp hv with hv1 | hv2
        · exact hm q (by simp) v hv1
        · rcases List.mem_singleton.mp hv2 with rfl
          exact heq.symm
      · exact hm p (List.mem_cons_of_mem _ hp2) v hv
    next =>
      rcases List.mem_cons.mp hp with rfl | hp2
      · exact hm p (by simp) v hv
      · exact ih (fun q2 hq2 => hm q2 (List.mem_cons_of_mem _ hq2)) p hp2 v hv

theorem partitionByTag_key_correct (ways : List Way) (tag : String) :
    ∀ p ∈ partitionByTag ways tag, ∀ v ∈ p.2, tagValueOf v tag = p.1 := by
  have hgen : ∀ (ws : List Way) (m : List (String × List Way)),
      (∀ p ∈ m, ∀ v ∈ p.2, tagValueOf v tag = p.1) →
      ∀ p ∈ ws.foldl (fun m w => groupPush m (tagValueOf w tag) w) m,
        ∀ v ∈ p.2, tagValueOf v tag = p.1 := by
    intro ws
    induction ws with
    | nil => intro m hm; exact hm
    | cons w rest ih =>
      intro m hm
      rw [List.foldl_cons]
      exact ih _ (groupPush_key_correct m tag w hm)
  exact hgen ways [] (by intro p hp; cases hp)

/-- Claim C6: with grouping enabled, `coalesceOpenWays` partitions the batch
by the configured tag's value (ways lacking a value forming the
empty-string group), runs the component pipeline independently per group,
and never raises — the complexity guard is bypassed entirely, on every
input.  The partition returns exactly the input ways, each filed under its
own tag value. -/
theorem claim6_grouped_coalescing :
    ∀ (openWays : List Way) (options : CoalesceOpts),
      options.groupByEnabled = some true →
      coalesceOpenWays openWays options = Except.ok
        ⟨(partitionByTag openWays (options.groupByTag.getD "name")).foldr
            (fun g acc => processGroup g.2 ++ acc) [], []⟩ ∧
      (flattenGroups
          (partitionByTag openWays (options.groupByTag.getD "name"))).Perm
        openWays ∧
      (∀ p ∈ partitionByTag openWays (options.groupByTag.getD "name"),
        ∀ v ∈ p.2, tagValueOf v (options.groupByTag.getD "name") = p.1) := by
  intro openWays options henabled
  refine ⟨?_, ?_, partitionByTag_key_correct openWays _⟩
  · cases openWays with
    | nil =>
      simp [coalesceOpenWays, henabled, partitionByTag_nil]
    | cons w rest =>
      simp only [coalesceOpenWays, henabled, Option.getD_some,
        List.isEmpty_cons, Bool.false_eq_true, if_false, if_true]
  · have h := flattenGroups_partition openWays (options.groupByTag.getD "name") []
    simpa [flattenGroups] using h

/-- Witness for C6: two `ref`-tagged ways and one untagged way — grouping on
`ref` yields two independent groups plus the empty-string group, with no
complexity error possible. -/
theorem claim6_witness :
    coalesceOpenWays
        [⟨1, [( "ref", "A")], [(0, 0), (1, 1)]⟩,
         ⟨2, [( "ref", "B")], [(0, 0), (2, 2)]⟩,
         ⟨3, [], [(0, 0), (3, 3)]⟩] ⟨some true, some "ref"⟩ =
      Except.ok
        ⟨(partitionByTag
            [⟨1, [( "ref", "A")], [(0, 0), (1, 1)]⟩,
             ⟨2, [( "ref", "B")], [(0, 0), (2, 2)]⟩,
             ⟨3, [], [(0, 0), (3, 3)]⟩] "ref").foldr
            (fun g acc => processGroup g.2 ++ acc) [], []⟩ ∧
    (partitionByTag
        [⟨1, [( "ref", "A")], [(0, 0), (1, 1)]⟩,
         ⟨2, [( "ref", "B")], [(0, 0), (2, 2)]⟩,
         ⟨3, [], [(0, 0), (3, 3)]⟩] "ref").map (fun p => p.1) =
      ["A", "B", ""] := by
  constructor
  · exact (claim6_grouped_coalescing _ ⟨some true, some "ref"⟩ rfl).1
  · rfl

theorem bfsAux_spec (wayMap : WayMap) (em : EndpointMap) (R : List Nat)
    (hemR : ∀ i ∈ emWayIds em, i ∈ R) :
    ∀ (queue visited component : List Nat) (hq : ∀ i ∈ queue, i ∈ R)
      (v' c' : List Nat),
      bfsAux wayMap em R hemR queue visited component hq = (v', c') →
      ∃ Δ : List Nat, c' = component ++ Δ ∧
        (∀ i, i ∈ v' ↔ i ∈ Δ ∨ i ∈ visited) ∧ Δ.Nodup ∧
        (∀ i ∈ Δ, i ∉ visited ∧ i ∈ R) ∧ (∀ i ∈ queue, i ∈ v') := by
  intro queue visited component hq
  induction queue, visited, component, hq using bfsAux.induct wayMap em R hemR with
  | case1 visited component hq hextra =>
    intro v' c' h
    rw [bfsAux] at h
    rcases Prod.mk.injEq .. ▸ h with ⟨rfl, rfl⟩
    refine ⟨[], by simp, ?_, List.nodup_nil, by simp, by simp⟩
    intro i
    simp
  | case2 visited component currentId rest hq hv hextra ih =>
    intro v' c' h
    rw [bfsAux, dif_pos hv] at h
    rcases ih v' c' h with ⟨Δ, h1, h2, h3, h4, h5⟩
    refine ⟨Δ, h1, h2, h3, h4, ?_⟩
    intro i hi
    rcases List.mem_cons.mp hi with rfl | hi2
    · exact (h2 i).mpr (Or.inr hv)
    · exact h5 i hi2
  | case3 visited component currentId rest hq hv visited2 component2
      currentWay firstNode lastNode conns1 conns2 pushes hextra ih =>
    intro v' c' h
    rw [bfsAux, dif_neg hv] at h
    rcases ih v' c' h with ⟨Δ', h1, h2, h3, h4, h5⟩
    simp only [visited2, component2] at h1 h2 h4
    refine ⟨currentId :: Δ', ?_, ?_, ?_, ?_, ?_⟩
    · rw [h1]
      simp
    · intro i
      rw [h2 i]
      simp only [List.mem_cons]
      tauto
    · rw [List.nodup_cons]
      refine ⟨?_, h3⟩
      intro hmem
      exact (h4 currentId hmem).1 (by simp)
    · intro i hi
      rcases List.mem_cons.mp hi with rfl | hi2
      · exact ⟨hv, hq i (by simp)⟩
      · have := h4 i hi2
        refine ⟨?_, this.2⟩
        intro hvis
        exact this.1 (List.mem_cons_of_mem _ hvis)
    · intro i hi
      rcases List.mem_cons.mp hi with rfl | hi2
      · exact (h2 i).mpr (Or.inr (by simp))
      · exact h5 i (List.mem_append_left _ hi2)

theorem componentsLoop_nil_eq (wayMap : WayMap) (em : EndpointMap)
    (R : List Nat) (hemR : ∀ i ∈ emWayIds em, i ∈ R) (visited : List Nat)
    (acc : List (List Nat)) (hp : ∀ w ∈ ([] : List Way), w.id ∈ R) :
    componentsLoop wayMap em R hemR [] visited acc hp = acc := rfl

theorem componentsLoop_cons_mem (wayMap : WayMap) (em : EndpointMap)
    (R : List Nat) (hemR : ∀ i ∈ emWayIds em, i ∈ R) (w : Way)
    (rest : List Way) (visited : List Nat) (acc : List (List Nat))
    (hp : ∀ v ∈ w :: rest, v.id ∈ R) (hp' : ∀ v ∈ rest, v.id ∈ R)
    (hv : w.id ∈ visited) :
    componentsLoop wayMap em R hemR (w :: rest) visited acc hp =
      componentsLoop wayMap em R hemR rest visited acc hp' := by
  rw [componentsLoop, if_pos hv]

theorem componentsLoop_cons_notMem (wayMap : WayMap) (em : EndpointMap)
    (R : List Nat) (hemR : ∀ i ∈ emWayIds em, i ∈ R) (w : Way)
    (rest : List Way) (visited : List Nat) (acc : List (List Nat))
    (hp : ∀ v ∈ w :: rest, v.id ∈ R) (hp' : ∀ v ∈ rest, v.id ∈ R)
    (hq0 : ∀ i ∈ [w.id], i ∈ R) (hv : w.id ∉ visited) :
    componentsLoop wayMap em R hemR (w :: rest) visited acc hp =
      componentsLoop wayMap em R hemR rest
        (bfsAux wayMap em R hemR [w.id] visited [] hq0).1
        (acc ++ [(bfsAux wayMap em R hemR [w.id] visited [] hq0).2]) hp' := by
  rw [componentsLoop, if_neg hv]

theorem componentsLoop_spec (wayMap : WayMap) (em : EndpointMap) (R : List Nat)
    (hemR : ∀ i ∈ emWayIds em, i ∈ R) :
    ∀ (pending : List Way) (visited : List Nat) (acc : List (List Nat))
      (hp : ∀ w ∈ pending, w.id ∈ R),
      (∀ i, i ∈ acc.flatten ↔ i ∈ visited) → acc.flatten.Nodup →
      ∃ vfinal : List Nat,
        (∀ i, i ∈ (componentsLoop wayMap em R hemR pending visited acc hp).flatten ↔
          i ∈ vfinal) ∧
        (componentsLoop wayMap em R hemR pending visited acc hp).flatten.Nodup ∧
        (∀ i ∈ visited, i ∈ vfinal) ∧
        (∀ w ∈ pending, w.id ∈ vfinal) ∧
        (∀ i ∈ vfinal, i ∈ visited ∨ i ∈ R) := by
  intro pending
  induction pending with
  | nil =>
    intro visited acc hp hjv hnd
    refine ⟨visited, ?_, ?_, fun i hi => hi, by simp, fun i hi => Or.inl hi⟩
    · intro i
      rw [componentsLoop_nil_eq]
      exact hjv i
    · rw [componentsLoop_nil_eq]
      exact hnd
  | cons w rest ih =>
    intro visited acc hp hjv hnd
    have hp' : ∀ v ∈ rest, v.id ∈ R :=
      fun v hv2 => hp v (List.mem_cons_of_mem _ hv2)
    by_cases hv : w.id ∈ visited
    · rw [componentsLoop_cons_mem wayMap em R hemR w rest visited acc hp hp' hv]
      rcases ih visited acc hp' hjv hnd with ⟨vfinal, k1, k2, k3, k4, k5⟩
      refine ⟨vfinal, k1, k2, k3, ?_, k5⟩
      intro v hvmem
      rcases List.mem_cons.mp hvmem with rfl | h2
      · exact k3 v.id hv
      · exact k4 v h2
    · have hq0 : ∀ i ∈ [w.id], i ∈ R := by
        intro i hi
        rcases List.mem_singleton.mp hi with rfl
        exact hp w (by simp)
      rw [componentsLoop_cons_notMem wayMap em R hemR w rest visited acc hp
        hp' hq0 hv]
      rcases hb : bfsAux wayMap em R hemR [w.id] visited [] hq0 with ⟨v2, comp⟩
      rcases bfsAux_spec wayMap em R hemR [w.id] visited [] hq0 v2 comp hb with
        ⟨Del, hd1, hd2, hd3, hd4, hd5⟩
      simp only [List.nil_append] at hd1
      subst hd1
      have hjv2 : ∀ i, i ∈ (acc ++ [comp]).flatten ↔ i ∈ v2 := by
        intro i
        rw [List.flatten_append, List.mem_append, hd2 i]
        simp only [List.flatten_cons, List.flatten_nil, List.append_nil,
          hjv i]
        tauto
      have hnd2 : (acc ++ [comp]).flatten.Nodup := by
        rw [List.flatten_append]
        simp only [List.flatten_cons, List.flatten_nil, List.append_nil]
        refine List.Nodup.append hnd hd3 ?_
        intro a ha1 ha2
        exact (hd4 a ha2).1 ((hjv a).mp ha1)
      rcases ih v2 (acc ++ [comp]) hp' hjv2 hnd2 with ⟨vfinal, k1, k2, k3, k4, k5⟩
      have hvis_sub : ∀ i ∈ visited, i ∈ vfinal := by
        intro i hi
        exact k3 i ((hd2 i).mpr (Or.inr hi))
      refine ⟨vfinal, k1, k2, hvis_sub, ?_, ?_⟩
      · intro v hvmem
        rcases List.mem_cons.mp hvmem with rfl | h2
        · exact k3 v.id (hd5 v.id (by simp))
        · exact k4 v h2
      · intro i hi
        rcases k5 i hi with h2 | h2
        · rcases (hd2 i).mp h2 with h3 | h3
          · exact Or.inr (hd4 i h3).2
          · exact Or.inl h3
        · exact Or.inr h2

theorem emWayIds_emPush (m : EndpointMap) (k : Coord) (e : EndpointEntry) :
    ∀ i, i ∈ emWayIds (emPush m k e) ↔ i ∈ emWayIds m ∨ i = e.wayId := by
  induction m with
  | nil =>
    intro i
    simp [emPush, emWayIds]
  | cons p rest ih =>
    intro i
    rw [emPush]
    split
    · simp only [emWayIds, List.foldr_cons, List.mem_append, List.mem_map,
        List.map_append, List.mem_singleton]
      aesop
    · simp only [emWayIds, List.foldr_cons, List.mem_append]
      have h2 := ih i
      simp only [emWayIds] at h2
      rw [h2]
      tauto

theorem emWayIds_endpointStep (m : EndpointMap) (w : Way) :
    ∀ i ∈ emWayIds (endpointStep m w), i ∈ emWayIds m ∨ i = w.id := by
  intro i hi
  rw [endpointStep] at hi
  split at hi
  · rcases (emWayIds_emPush _ _ _ i).mp hi with h | h
    · rcases (emWayIds_emPush _ _ _ i).mp h with h2 | h2
      · exact Or.inl h2
      · exact Or.inr h2
    · exact Or.inr h
  · rcases (emWayIds_emPush _ _ _ i).mp hi with h | h
    · exact Or.inl h
    · exact Or.inr h

theorem emWayIds_buildEndpointMap (ways : List Way) :
    ∀ i ∈ emWayIds (buildEndpointMap ways), i ∈ ways.map (fun w => w.id) := by
  have hgen : ∀ (ws : List Way) (m : EndpointMap) (S : List Nat),
      (∀ i ∈ emWayIds m, i ∈ S) → (∀ w ∈ ws, w.id ∈ S) →
      ∀ i ∈ emWayIds (ws.foldl endpointStep m), i ∈ S := by
    intro ws
    induction ws with
    | nil => intro m S hm hw i hi; exact hm i hi
    | cons w rest ih =>
      intro m S hm hw i hi
      rw [List.foldl_cons] at hi
      refine ih (endpointStep m w) S ?_ (fun v hv => hw v (List.mem_cons_of_mem _ hv)) i hi
      intro j hj
      rcases emWayIds_endpointStep m w j hj with h | h
      · exact hm j h
      · rw [h]
        exact hw w (by simp)
  intro i hi
  exact hgen ways [] (ways.map (fun w => w.id)) (by intro j hj; cases hj)
    (fun w hw => List.mem_map.mpr ⟨w, hw, rfl⟩) i hi

theorem countP_flatten_eq_one (L : List (List Nat)) (x : Nat)
    (hnd : L.flatten.Nodup) (hx : x ∈ L.flatten) :
    L.countP (fun c => decide (x ∈ c)) = 1 := by
  induction L with
  | nil => simp at hx
  | cons c rest ih =>
    rw [List.flatten_cons] at hnd hx
    rcases List.nodup_append.mp hnd with ⟨hc, hrest, hdisj⟩
    rw [List.countP_cons]
    by_cases hxc : x ∈ c
    · have hzero : rest.countP (fun c2 => decide (x ∈ c2)) = 0 := by
        rw [List.countP_eq_zero]
        intro c2 hc2
        simp only [decide_eq_true_eq]
        intro hxc2
        exact hdisj hxc (List.mem_flatten.mpr ⟨c2, hc2, hxc2⟩)
      simp [hzero, hxc]
    · have hxrest : x ∈ rest.flatten := by
        rcases List.mem_append.mp hx with h | h
        · exact absurd h hxc
        · exact h
      simp [ih hrest hxrest, hxc]

/-- Claim C7: on any set of ways with distinct IDs and its own endpoint
graph, `findConnectedComponents` returns a partition of the input — the
concatenation of the components is a permutation of the input way IDs, and
each input way's ID occurs in exactly one component. -/
theorem claim7_component_partition :
    ∀ ways : List Way,
      (ways.map (fun w => w.id)).Nodup →
      ((findConnectedComponents ways (buildEndpointMap ways)).flatten).Perm
        (ways.map (fun w => w.id)) ∧
      (∀ w ∈ ways,
        (findConnectedComponents ways (buildEndpointMap ways)).countP
          (fun c => decide (w.id ∈ c)) = 1) := by
  intro ways hnodup
  have hsub := emWayIds_buildEndpointMap ways
  rcases componentsLoop_spec (buildWayMap ways) (buildEndpointMap ways)
      (ways.map (fun w => w.id) ++ emWayIds (buildEndpointMap ways))
      (fun i hi => List.mem_append.mpr (Or.inr hi)) ways [] []
      (fun w hw => List.mem_append.mpr (Or.inl (List.mem_map.mpr ⟨w, hw, rfl⟩)))
      (by intro i; simp) (by simp) with
    ⟨vfinal, k1, k2, k3, k4, k5⟩
  have hcomps : findConnectedComponents ways (buildEndpointMap ways) =
      componentsLoop (buildWayMap ways) (buildEndpointMap ways)
        (ways.map (fun w => w.id) ++ emWayIds (buildEndpointMap ways))
        (fun i hi => List.mem_append.mpr (Or.inr hi)) ways [] []
        (fun w hw => List.mem_append.mpr (Or.inl (List.mem_map.mpr ⟨w, hw, rfl⟩))) :=
    rfl
  rw [hcomps]
  have hset : ∀ i,
      i ∈ (componentsLoop (buildWayMap ways) (buildEndpointMap ways)
        (ways.map (fun w => w.id) ++ emWayIds (buildEndpointMap ways))
        (fun i hi => List.mem_append.mpr (Or.inr hi)) ways [] []
        (fun w hw => List.mem_append.mpr
          (Or.inl (List.mem_map.mpr ⟨w, hw, rfl⟩)))).flatten ↔
      i ∈ ways.map (fun w => w.id) := by
    intro i
    rw [k1 i]
    constructor
    · intro hi
      rcases k5 i hi with h | h
      · cases h
      · rcases List.mem_append.mp h with h2 | h2
        · exact h2
        · exact hsub i h2
    · intro hi
      rcases List.mem_map.mp hi with ⟨w, hw, rfl⟩
      exact k4 w hw
  constructor
  · exact (List.perm_ext_iff_of_nodup k2 hnodup).mpr hset
  · intro w hw
    exact countP_flatten_eq_one _ w.id k2
      ((hset w.id).mpr (List.mem_map.mpr ⟨w, hw, rfl⟩))

/-- Witness for C7: two connected ways and one disjoint way partition into
two components covering the three IDs exactly. -/
theorem claim7_witness :
    ((findConnectedComponents
        [⟨1, [], [(0, 0), (5, 5)]⟩, ⟨2, [], [(5, 5), (9, 9)]⟩,
         ⟨3, [], [(7, 0), (8, 0)]⟩]
        (buildEndpointMap
          [⟨1, [], [(0, 0), (5, 5)]⟩, ⟨2, [], [(5, 5), (9, 9)]⟩,
           ⟨3, [], [(7, 0), (8, 0)]⟩])).flatten).Perm [1, 2, 3] ∧
    (findConnectedComponents
        [⟨1, [], [(0, 0), (5, 5)]⟩, ⟨2, [], [(5, 5), (9, 9)]⟩,
         ⟨3, [], [(7, 0), (8, 0)]⟩]
        (buildEndpointMap
          [⟨1, [], [(0, 0), (5, 5)]⟩, ⟨2, [], [(5, 5), (9, 9)]⟩,
           ⟨3, [], [(7, 0), (8, 0)]⟩])).countP
        (fun c => decide (2 ∈ c)) = 1 := by
  have h := claim7_component_partition
    [⟨1, [], [(0, 0), (5, 5)]⟩, ⟨2, [], [(5, 5), (9, 9)]⟩,
     ⟨3, [], [(7, 0), (8, 0)]⟩] (by decide)
  exact ⟨h.1, h.2 ⟨2, [], [(5, 5), (9, 9)]⟩ (by simp)⟩

/-- An orientation choice for a chain: `true` reverses it. -/
def orient (c : Chain) (b : Bool) : Chain := if b then c.reverse else c

/-- Apply the orientation choices of a cycle witness. -/
def orientAll (l : List (Chain × Bool)) : List Chain :=
  l.map (fun p => orient p.1 p.2)

/-- Executable gluing predicate: the oriented chains form a path from `a`
to `b`, each chain starting exactly where the previous one ended. -/
def pathGlue (a b : Coord) : List Chain → Bool
  | [] => decide (a = b)
  | c :: cs => decide (chainStart c = a) && pathGlue (chainEnd c) b cs

/-- The junction coordinates of a glued path starting at `a`: `a` followed
by each oriented chain's end. -/
def glueJunctions (a : Coord) (os : List Chain) : List Coord :=
  a :: os.map chainEnd

theorem chainStart_cons (x : Coord) (xs : List Coord) :
    chainStart (x :: xs) = x := rfl

theorem chainEnd_cons_cons (x y : Coord) (xs : List Coord) :
    chainEnd (x :: y :: xs) = chainEnd (y :: xs) := by
  simp [chainEnd]

theorem chainStart_append (x y : Chain) (hx : x ≠ []) :
    chainStart (x ++ y) = chainStart x := by
  cases x with
  | nil => exact absurd rfl hx
  | cons a rest => simp [chainStart]

theorem chainEnd_append (x y : Chain) (hy : y ≠ []) :
    chainEnd (x ++ y) = chainEnd y := by
  rw [chainEnd, chainEnd, List.getLastD_eq_getLast?, List.getLastD_eq_getLast?,
    List.getLast?_append]
  cases hg : y.getLast? with
  | none => exact absurd (List.getLast?_eq_none_iff.mp hg) hy
  | some v => rfl

theorem chainEnd_tail (c : Chain) (h : 2 ≤ c.length) :
    chainEnd c.tail = chainEnd c := by
  cases c with
  | nil => simp at h
  | cons a rest =>
    cases rest with
    | nil => simp at h
    | cons b rest2 =>
      rw [List.tail_cons, chainEnd_cons_cons]

theorem chainStart_reverse (c : Chain) (hc : c ≠ []) :
    chainStart c.reverse = chainEnd c := by
  rw [chainStart, chainEnd, List.headD_eq_head?, List.getLastD_eq_getLast?,
    List.head?_reverse]

theorem chainEnd_reverse (c : Chain) (hc : c ≠ []) :
    chainEnd c.reverse = chainStart c := by
  rw [chainStart, chainEnd, List.headD_eq_head?, List.getLastD_eq_getLast?,
    List.getLast?_reverse]

theorem dropLast_reverse_eq (c : Chain) : c.dropLast.reverse = c.reverse.tail := by
  rw [List.tail_reverse]

theorem tail_reverse_eq (c : Chain) : c.tail.reverse = c.reverse.dropLast := by
  have h := List.tail_reverse c.reverse
  rw [List.reverse_reverse] at h
  rw [h, List.reverse_reverse]

theorem mem_orient (v : Coord) (c : Chain) (b : Bool) :
    v ∈ orient c b ↔ v ∈ c := by
  rw [orient]
  split
  · exact List.mem_reverse
  · exact Iff.rfl

theorem length_orient (c : Chain) (b : Bool) : (orient c b).length = c.length := by
  rw [orient]
  split
  · exact List.length_reverse c
  · rfl

theorem chainStart_mem (c : Chain) (hc : c ≠ []) : chainStart c ∈ c := by
  cases c with
  | nil => exact absurd rfl hc
  | cons a rest => simp [chainStart]

theorem chainEnd_mem (c : Chain) (hc : c ≠ []) : chainEnd c ∈ c := by
  rw [chainEnd, List.getLastD_eq_getLast?]
  cases hg : c.getLast? with
  | none => exact absurd (List.getLast?_eq_none_iff.mp hg) hc
  | some x =>
    simp only [Option.getD_some]
    rcases List.getLast?_eq_some_iff.mp hg with ⟨ys, rfl⟩
    simp

theorem ne_nil_of_two_le {c : Chain} (h : 2 ≤ c.length) : c ≠ [] := by
  intro hnil
  rw [hnil] at h
  simp at h

theorem tail_ne_nil_of_two_le {c : Chain} (h : 2 ≤ c.length) : c.tail ≠ [] := by
  intro hnil
  have := List.length_tail c
  rw [hnil] at this
  simp at this
  omega

theorem orient_items (c : Chain) (b : Bool) (hc : c ≠ []) :
    (chainStart (orient c b) = chainStart c ∧ chainEnd (orient c b) = chainEnd c) ∨
    (chainStart (orient c b) = chainEnd c ∧ chainEnd (orient c b) = chainStart c) := by
  rw [orient]
  cases b with
  | false => simp
  | true =>
    simp only [if_true]
    exact Or.inr ⟨chainStart_reverse c hc, chainEnd_reverse c hc⟩

theorem pathGlue_nil_iff (a b : Coord) : pathGlue a b [] = true ↔ a = b := by
  simp [pathGlue]

theorem pathGlue_cons_iff (a b : Coord) (o : Chain) (os : List Chain) :
    pathGlue a b (o :: os) = true ↔
      chainStart o = a ∧ pathGlue (chainEnd o) b os = true := by
  simp [pathGlue]

theorem glueJunctions_cons (a : Coord) (o : Chain) (os : List Chain) :
    glueJunctions a (o :: os) = a :: glueJunctions (chainEnd o) os := by
  simp [glueJunctions]

theorem pathGlue_getLast (a b : Coord) :
    ∀ os : List Chain, pathGlue a b os = true →
      (glueJunctions a os).getLast? = some b := by
  intro os
  induction os generalizing a with
  | nil =>
    intro h
    rw [pathGlue_nil_iff] at h
    subst h
    rfl
  | cons o rest ih =>
    intro h
    rcases (pathGlue_cons_iff a b o rest).mp h with ⟨h1, h2⟩
    have hstep : glueJunctions a (o :: rest) =
        a :: glueJunctions (chainEnd o) rest := glueJunctions_cons a o rest
    rw [hstep, glueJunctions, List.getLast?_cons_cons]
    exact ih (chainEnd o) h2

theorem orient_false (c : Chain) : orient c false = c := rfl

theorem orient_true (c : Chain) : orient c true = c.reverse := rfl

theorem orientAll_nil : orientAll [] = [] := rfl

theorem orientAll_cons (p : Chain × Bool) (l : List (Chain × Bool)) :
    orientAll (p :: l) = orient p.1 p.2 :: orientAll l := rfl

theorem orientAll_append (l1 l2 : List (Chain × Bool)) :
    orientAll (l1 ++ l2) = orientAll l1 ++ orientAll l2 := by
  simp [orientAll]

theorem coordsEqual_eq_false_iff (a b : Coord) :
    coordsEqual a b = false ↔ a ≠ b := by
  constructor
  · intro h hab
    rw [hab] at h
    rw [(coordsEqual_iff b b).mpr rfl] at h
    cases h
  · intro h
    cases hc : coordsEqual a b with
    | false => rfl
    | true => exact absurd ((coordsEqual_iff a b).mp hc) h

theorem pathGlue_concat (y : Coord) (z : Chain) :
    ∀ (xs : List Chain) (x : Coord), pathGlue x y (xs ++ [z]) = true ↔
      (pathGlue x (chainStart z) xs = true ∧ chainEnd z = y) := by
  intro xs
  induction xs with
  | nil =>
    intro x
    simp only [List.nil_append, pathGlue, Bool.and_eq_true, decide_eq_true_eq]
    constructor
    · rintro ⟨h1, h2⟩
      exact ⟨h1.symm, h2⟩
    · rintro ⟨h1, h2⟩
      exact ⟨h1.symm, h2⟩
  | cons o rest ih =>
    intro x
    simp only [List.cons_append, pathGlue, Bool.and_eq_true, decide_eq_true_eq,
      List.append_eq]
    rw [ih (chainEnd o)]
    tauto

theorem glueJunctions_concat (a : Coord) (xs : List Chain) (z : Chain) :
    glueJunctions a (xs ++ [z]) = glueJunctions a xs ++ [chainEnd z] := by
  simp [glueJunctions]

/-- Every member chain of a glued cycle witness has both of its endpoints
among the junction coordinates. -/
theorem pair_ends_mem_junctions (b : Coord) :
    ∀ (l : List (Chain × Bool)) (a : Coord),
      pathGlue a b (orientAll l) = true →
      (∀ p ∈ l, p.1 ≠ []) →
      ∀ p ∈ l, chainStart p.1 ∈ glueJunctions a (orientAll l) ∧
        chainEnd p.1 ∈ glueJunctions a (orientAll l) := by
  intro l
  induction l with
  | nil => intro a h hne p hp; cases hp
  | cons q rest ih =>
    intro a h hne p hp
    rw [orientAll_cons] at h ⊢
    rcases (pathGlue_cons_iff _ _ _ _).mp h with ⟨h1, h2⟩
    have hJ : glueJunctions a (orient q.1 q.2 :: orientAll rest) =
        a :: glueJunctions (chainEnd (orient q.1 q.2)) (orientAll rest) :=
      glueJunctions_cons _ _ _
    rcases List.mem_cons.mp hp with rfl | hp2
    · have hqne : p.1 ≠ [] := hne p (by simp)
      have hstartmem : chainEnd (orient p.1 p.2) ∈
          glueJunctions (chainEnd (orient p.1 p.2)) (orientAll rest) := by
        rw [glueJunctions]
        simp
      rcases orient_items p.1 p.2 hqne with ⟨e1, e2⟩ | ⟨e1, e2⟩
      · constructor
        · rw [hJ, ← e1, h1]
          simp
        · rw [hJ, ← e2]
          exact List.mem_cons_of_mem _ hstartmem
      · constructor
        · rw [hJ, ← e2]
          exact List.mem_cons_of_mem _ hstartmem
        · rw [hJ, ← e1, h1]
          simp
    · have hrec := ih (chainEnd (orient q.1 q.2)) h2
        (fun v hv => hne v (List.mem_cons_of_mem _ hv)) p hp2
      rw [hJ]
      exact ⟨List.mem_cons_of_mem _ hrec.1, List.mem_cons_of_mem _ hrec.2⟩

/-- In a glued cycle with pairwise-distinct junctions, every member chain
has two distinct endpoints. -/
theorem pair_ends_distinct (b : Coord) :
    ∀ (l : List (Chain × Bool)) (a : Coord),
      pathGlue a b (orientAll l) = true →
      (∀ p ∈ l, p.1 ≠ []) →
      (glueJunctions a (orientAll l)).Nodup →
      ∀ p ∈ l, chainStart p.1 ≠ chainEnd p.1 := by
  intro l
  induction l with
  | nil => intro a h hne hnd p hp; cases hp
  | cons q rest ih =>
    intro a h hne hnd p hp
    rw [orientAll_cons] at h hnd
    rcases (pathGlue_cons_iff _ _ _ _).mp h with ⟨h1, h2⟩
    rw [glueJunctions_cons] at hnd
    rcases List.mem_cons.mp hp with rfl | hp2
    · have hqne : p.1 ≠ [] := hne p (by simp)
      have hane : a ≠ chainEnd (orient p.1 p.2) := by
        rcases List.nodup_cons.mp hnd with ⟨hna, -⟩
        intro heq
        apply hna
        rw [heq, glueJunctions]
        simp
      rcases orient_items p.1 p.2 hqne with ⟨e1, e2⟩ | ⟨e1, e2⟩
      · rw [← e1, ← e2, h1]
        exact hane
      · rw [← e2, ← e1, h1]
        exact fun hh => hane hh.symm
    · exact ih (chainEnd (orient q.1 q.2)) h2
        (fun v hv => hne v (List.mem_cons_of_mem _ hv))
        (List.nodup_cons.mp hnd).2 p hp2

/-- In a glued cycle with distinct junctions, a member chain one of whose
endpoint values equals the glue start must be the first chain of the
witness. -/
theorem front_pair (b : Coord) :
    ∀ (l : List (Chain × Bool)) (a : Coord) (c : Chain),
      pathGlue a b (orientAll l) = true →
      (∀ p ∈ l, p.1 ≠ []) →
      (glueJunctions a (orientAll l)).Nodup →
      (∃ bb, (c, bb) ∈ l) →
      (chainStart c = a ∨ chainEnd c = a) →
      ∃ b0 ltail, l = (c, b0) :: ltail := by
  intro l
  induction l with
  | nil =>
    intro a c h hne hnd hmem hend
    rcases hmem with ⟨bb, hbb⟩
    cases hbb
  | cons q rest ih =>
    intro a c h hne hnd hmem hend
    rcases hmem with ⟨bb, hbb⟩
    rcases List.mem_cons.mp hbb with heq | hmem2
    · exact ⟨bb, rest, by rw [← heq]⟩
    · exfalso
      rw [orientAll_cons] at h hnd
      rcases (pathGlue_cons_iff _ _ _ _).mp h with ⟨h1, h2⟩
      rw [glueJunctions_cons] at hnd
      rcases List.nodup_cons.mp hnd with ⟨hna, -⟩
      have hends := pair_ends_mem_junctions b rest (chainEnd (orient q.1 q.2))
        h2 (fun v hv => hne v (List.mem_cons_of_mem _ hv)) (c, bb) hmem2
      rcases hend with he | he
      · exact hna (by rw [← he]; exact hends.1)
      · exact hna (by rw [← he]; exact hends.2)

/-- Dual of `front_pair`: a member chain one of whose endpoint values equals
the glue end must be the last chain of the witness. -/
theorem back_pair (b : Coord) :
    ∀ (l : List (Chain × Bool)) (a : Coord) (c : Chain),
      pathGlue a b (orientAll l) = true →
      (∀ p ∈ l, p.1 ≠ []) →
      (glueJunctions a (orientAll l)).Nodup →
      (∃ bb, (c, bb) ∈ l) →
      (chainStart c = b ∨ chainEnd c = b) →
      ∃ b0 linit, l = linit ++ [(c, b0)] := by
  intro l
  induction l with
  | nil =>
    intro a c h hne hnd hmem hend
    rcases hmem with ⟨bb, hbb⟩
    cases hbb
  | cons q rest ih =>
    intro a c h hne hnd hmem hend
    rcases hmem with ⟨bb, hbb⟩
    cases rest with
    | nil =>
      rcases List.mem_singleton.mp hbb with rfl
      exact ⟨bb, [], rfl⟩
    | cons r rest2 =>
      rw [orientAll_cons] at h hnd
      rcases (pathGlue_cons_iff _ _ _ _).mp h with ⟨h1, h2⟩
      rw [glueJunctions_cons] at hnd
      rcases List.mem_cons.mp hbb with heq | hmem2
      · exfalso
        have hqc : q.1 = c := by rw [← heq]
        have hlast := pathGlue_getLast _ b _ h2
        have hTne : (glueJunctions (chainEnd (orient q.1 q.2))
            (orientAll (r :: rest2))) =
            chainEnd (orient q.1 q.2) ::
              glueJunctions (chainEnd (orient r.1 r.2)) (orientAll rest2) := by
          rw [orientAll_cons, glueJunctions_cons]
        have hbmem : b ∈ glueJunctions (chainEnd (orient r.1 r.2))
            (orientAll rest2) := by
          rw [hTne] at hlast
          cases hT : glueJunctions (chainEnd (orient r.1 r.2))
              (orientAll rest2) with
          | nil =>
            exact absurd hT (by rw [glueJunctions]; exact List.cons_ne_nil _ _)
          | cons t ts =>
            rw [hT, List.getLast?_cons_cons] at hlast
            rcases List.getLast?_eq_some_iff.mp hlast with ⟨ys, hys⟩
            rw [hys]
            simp
        rcases List.nodup_cons.mp hnd with ⟨hna, hnd2⟩
        rw [hTne] at hnd2
        rcases List.nodup_cons.mp hnd2 with ⟨hnb, -⟩
        have hqne : q.1 ≠ [] := hne q (by simp)
        have hset : b = a ∨ b = chainEnd (orient q.1 q.2) := by
          rcases orient_items q.1 q.2 hqne with ⟨e1, e2⟩ | ⟨e1, e2⟩
          · rcases hend with he | he
            · left
              rw [← he, ← hqc, ← e1]
              exact h1
            · right
              rw [← he, ← hqc]
              exact e2.symm
          · rcases hend with he | he
            · right
              rw [← he, ← hqc]
              exact e2.symm
            · left
              rw [← he, ← hqc, ← e1]
              exact h1
        rcases hset with rfl | rfl
        · apply hna
          rw [hTne]
          exact List.mem_cons_of_mem _ hbmem
        · exact hnb hbmem
      · rcases ih (chainEnd (orient q.1 q.2)) c h2
          (fun v hv => hne v (List.mem_cons_of_mem _ hv))
          (List.nodup_cons.mp hnd).2 ⟨bb, hmem2⟩ hend with ⟨b0, linit, hsplit⟩
        exact ⟨b0, q :: linit, by rw [List.cons_append, ← hsplit]⟩

/-- Any of the four connection conditions of the candidate scan. -/
def matchCond (current c : Chain) : Bool :=
  coordsEqual (chainEnd current) (chainStart c) ||
  coordsEqual (chainEnd current) (chainEnd c) ||
  coordsEqual (chainStart current) (chainEnd c) ||
  coordsEqual (chainStart current) (chainStart c)

theorem scanConnect_isSome (current : Chain) :
    ∀ remaining : List Chain, (∃ c ∈ remaining, matchCond current c = true) →
      ∃ res, scanConnect current remaining = some res := by
  intro remaining
  induction remaining with
  | nil =>
    rintro ⟨c, hc, -⟩
    cases hc
  | cons r rest ih =>
    rintro ⟨c, hc, hmatch⟩
    rw [scanConnect]
    by_cases h1 : coordsEqual (chainEnd current) (chainStart r) = true
    · rw [if_pos h1]; exact ⟨_, rfl⟩
    · rw [if_neg h1]
      by_cases h2 : coordsEqual (chainEnd current) (chainEnd r) = true
      · rw [if_pos h2]; exact ⟨_, rfl⟩
      · rw [if_neg h2]
        by_cases h3 : coordsEqual (chainStart current) (chainEnd r) = true
        · rw [if_pos h3]; exact ⟨_, rfl⟩
        · rw [if_neg h3]
          by_cases h4 : coordsEqual (chainStart current) (chainStart r) = true
          · rw [if_pos h4]; exact ⟨_, rfl⟩
          · rw [if_neg h4]
            have hcr : c ≠ r := by
              intro heq
              subst heq
              rw [matchCond] at hmatch
              simp only [Bool.or_eq_true] at hmatch
              rcases hmatch with ((ha | hb) | hc2) | hd
              · exact h1 ha
              · exact h2 hb
              · exact h3 hc2
              · exact h4 hd
            have hcrest : c ∈ rest := by
              rcases List.mem_cons.mp hc with rfl | hh
              · exact absurd rfl hcr
              · exact hh
            rcases ih ⟨c, hcrest, hmatch⟩ with ⟨res, hres⟩
            rw [hres]
            rcases res with ⟨cur, rest2⟩
            exact ⟨_, rfl⟩

theorem scanConnect_some_char (current : Chain) :
    ∀ remaining cur2 rest2, scanConnect current remaining = some (cur2, rest2) →
      ∃ c pre post, remaining = pre ++ c :: post ∧ rest2 = pre ++ post ∧
        ((coordsEqual (chainEnd current) (chainStart c) = true ∧
            cur2 = current ++ c.tail) ∨
         (coordsEqual (chainEnd current) (chainStart c) = false ∧
            coordsEqual (chainEnd current) (chainEnd c) = true ∧
            cur2 = current ++ c.dropLast.reverse) ∨
         (coordsEqual (chainEnd current) (chainStart c) = false ∧
            coordsEqual (chainEnd current) (chainEnd c) = false ∧
            coordsEqual (chainStart current) (chainEnd c) = true ∧
            cur2 = c.dropLast ++ current) ∨
         (coordsEqual (chainEnd current) (chainStart c) = false ∧
            coordsEqual (chainEnd current) (chainEnd c) = false ∧
            coordsEqual (chainStart current) (chainEnd c) = false ∧
            coordsEqual (chainStart current) (chainStart c) = true ∧
            cur2 = c.tail.reverse ++ current)) := by
  intro remaining
  induction remaining with
  | nil => intro cur2 rest2 h; simp [scanConnect] at h
  | cons r rest ih =>
    intro cur2 rest2 h
    rw [scanConnect] at h
    by_cases h1 : coordsEqual (chainEnd current) (chainStart r) = true
    · rw [if_pos h1] at h
      simp only [Option.some.injEq, Prod.mk.injEq] at h
      rcases h with ⟨rfl, rfl⟩
      exact ⟨r, [], rest, by simp, by simp, Or.inl ⟨h1, rfl⟩⟩
    · rw [if_neg h1] at h
      have h1f : coordsEqual (chainEnd current) (chainStart r) = false := by
        simpa using h1
      by_cases h2 : coordsEqual (chainEnd current) (chainEnd r) = true
      · rw [if_pos h2] at h
        simp only [Option.some.injEq, Prod.mk.injEq] at h
        rcases h with ⟨rfl, rfl⟩
        exact ⟨r, [], rest, by simp, by simp, Or.inr (Or.inl ⟨h1f, h2, rfl⟩)⟩
      · rw [if_neg h2] at h
        have h2f : coordsEqual (chainEnd current) (chainEnd r) = false := by
          simpa using h2
        by_cases h3 : coordsEqual (chainStart current) (chainEnd r) = true
        · rw [if_pos h3] at h
          simp only [Option.some.injEq, Prod.mk.injEq] at h
          rcases h with ⟨rfl, rfl⟩
          exact ⟨r, [], rest, by simp, by simp,
            Or.inr (Or.inr (Or.inl ⟨h1f, h2f, h3, rfl⟩))⟩
        · rw [if_neg h3] at h
          have h3f : coordsEqual (chainStart current) (chainEnd r) = false := by
            simpa using h3
          by_cases h4 : coordsEqual (chainStart current) (chainStart r) = true
          · rw [if_pos h4] at h
            simp only [Option.some.injEq, Prod.mk.injEq] at h
            rcases h with ⟨rfl, rfl⟩
            exact ⟨r, [], rest, by simp, by simp,
              Or.inr (Or.inr (Or.inr ⟨h1f, h2f, h3f, h4, rfl⟩))⟩
          · rw [if_neg h4] at h
            cases hm : scanConnect current rest with
            | none => rw [hm] at h; simp at h
            | some p =>
              rw [hm] at h
              rcases p with ⟨curp, restp⟩
              simp only [Option.some.injEq, Prod.mk.injEq] at h
              rcases h with ⟨rfl, rfl⟩
              rcases ih curp restp hm with ⟨c, pre, post, hr1, hr2, hcase⟩
              exact ⟨c, r :: pre, post, by rw [hr1]; rfl, by rw [hr2]; rfl,
                hcase⟩

theorem chainStart_dropLast (c : Chain) (h : 2 ≤ c.length) :
    chainStart c.dropLast = chainStart c := by
  cases c with
  | nil => simp at h
  | cons x xs =>
    cases xs with
    | nil => simp at h
    | cons y ys => rfl

theorem chainEnd_eq_getLast (c : Chain) (hc : c ≠ []) :
    chainEnd c = c.getLast hc := by
  rw [chainEnd, List.getLastD_eq_getLast?, List.getLast?_eq_getLast c hc]
  rfl

theorem mem_chain_iff_head_tail (c : Chain) (hc : c ≠ []) (v : Coord) :
    v ∈ c ↔ v = chainStart c ∨ v ∈ c.tail := by
  cases c with
  | nil => exact absurd rfl hc
  | cons x xs => simp [chainStart]

theorem mem_chain_iff_dropLast_last (c : Chain) (hc : c ≠ []) (v : Coord) :
    v ∈ c ↔ v ∈ c.dropLast ∨ v = chainEnd c := by
  conv_lhs => rw [← List.dropLast_append_getLast hc]
  rw [List.mem_append, List.mem_singleton, chainEnd_eq_getLast c hc]

theorem dropLast_ne_nil_of_two_le {c : Chain} (h : 2 ≤ c.length) :
    c.dropLast ≠ [] := by
  intro hnil
  have := List.length_dropLast c
  rw [hnil] at this
  simp at this
  omega

/-- Extending the accumulator forward: the cycle witness starts with the
consumed chain, and the splice appends that chain's oriented tail. -/
theorem step_extend_end (current c : Chain) (b0 : Bool)
    (ltail : List (Chain × Bool))
    (hlcur : 2 ≤ current.length) (hlc : 2 ≤ c.length)
    (hglue : pathGlue (chainEnd current) (chainStart current)
      (orientAll ((c, b0) :: ltail)) = true)
    (hnd : (glueJunctions (chainEnd current)
      (orientAll ((c, b0) :: ltail))).Nodup) :
    pathGlue (chainEnd (current ++ (orient c b0).tail))
        (chainStart (current ++ (orient c b0).tail)) (orientAll ltail) = true ∧
    (glueJunctions (chainEnd (current ++ (orient c b0).tail))
        (orientAll ltail)).Nodup ∧
    (∀ v, v ∈ current ++ (orient c b0).tail ↔ v ∈ current ∨ v ∈ c) ∧
    (current ++ (orient c b0).tail).length + 1 = current.length + c.length ∧
    2 ≤ (current ++ (orient c b0).tail).length := by
  have holen : (orient c b0).length = c.length := length_orient c b0
  have holen2 : 2 ≤ (orient c b0).length := by omega
  have hone : orient c b0 ≠ [] := ne_nil_of_two_le holen2
  have hotne : (orient c b0).tail ≠ [] := tail_ne_nil_of_two_le holen2
  have hcurne : current ≠ [] := ne_nil_of_two_le hlcur
  rw [orientAll_cons] at hglue hnd
  rcases (pathGlue_cons_iff _ _ _ _).mp hglue with ⟨h1, h2⟩
  have hend2 : chainEnd (current ++ (orient c b0).tail) =
      chainEnd (orient c b0) := by
    rw [chainEnd_append _ _ hotne, chainEnd_tail _ holen2]
  have hstart2 : chainStart (current ++ (orient c b0).tail) =
      chainStart current := chainStart_append _ _ hcurne
  refine ⟨?_, ?_, ?_, ?_, ?_⟩
  · rw [hend2, hstart2]
    exact h2
  · rw [hend2]
    rw [glueJunctions_cons] at hnd
    exact (List.nodup_cons.mp hnd).2
  · intro v
    rw [List.mem_append]
    constructor
    · rintro (hv | hv)
      · exact Or.inl hv
      · refine Or.inr ?_
        rw [← mem_orient v c b0]
        exact List.mem_of_mem_tail hv
    · rintro (hv | hv)
      · exact Or.inl hv
      · rw [← mem_orient v c b0] at hv
        rcases (mem_chain_iff_head_tail _ hone v).mp hv with rfl | hv2
        · left
          rw [h1]
          exact chainEnd_mem current hcurne
        · exact Or.inr hv2
  · rw [List.length_append, List.length_tail]
    omega
  · rw [List.length_append]
    omega

/-- Extending the accumulator backward: the cycle witness ends with the
consumed chain, and the splice prepends that chain minus its last point. -/
theorem step_extend_start (current c : Chain) (b0 : Bool)
    (linit : List (Chain × Bool))
    (hlcur : 2 ≤ current.length) (hlc : 2 ≤ c.length)
    (hglue : pathGlue (chainEnd current) (chainStart current)
      (orientAll (linit ++ [(c, b0)])) = true)
    (hnd : (glueJunctions (chainEnd current)
      (orientAll (linit ++ [(c, b0)]))).Nodup) :
    pathGlue (chainEnd ((orient c b0).dropLast ++ current))
        (chainStart ((orient c b0).dropLast ++ current))
        (orientAll linit) = true ∧
    (glueJunctions (chainEnd ((orient c b0).dropLast ++ current))
        (orientAll linit)).Nodup ∧
    (∀ v, v ∈ (orient c b0).dropLast ++ current ↔ v ∈ current ∨ v ∈ c) ∧
    ((orient c b0).dropLast ++ current).length + 1 =
      current.length + c.length ∧
    2 ≤ ((orient c b0).dropLast ++ current).length ∧
    chainEnd (orient c b0) = chainStart current := by
  have holen : (orient c b0).length = c.length := length_orient c b0
  have holen2 : 2 ≤ (orient c b0).length := by omega
  have hone : orient c b0 ≠ [] := ne_nil_of_two_le holen2
  have hodne : (orient c b0).dropLast ≠ [] := dropLast_ne_nil_of_two_le holen2
  have hcurne : current ≠ [] := ne_nil_of_two_le hlcur
  rw [orientAll_append] at hglue hnd
  have horient1 : orientAll [(c, b0)] = [orient c b0] := rfl
  rw [horient1] at hglue hnd
  rcases (pathGlue_concat _ _ _ _).mp hglue with ⟨h1, h2⟩
  have hend2 : chainEnd ((orient c b0).dropLast ++ current) =
      chainEnd current := chainEnd_append _ _ hcurne
  have hstart2 : chainStart ((orient c b0).dropLast ++ current) =
      chainStart (orient c b0) := by
    rw [chainStart_append _ _ hodne, chainStart_dropLast _ holen2]
  refine ⟨?_, ?_, ?_, ?_, ?_, h2⟩
  · rw [hend2, hstart2]
    exact h1
  · rw [hend2]
    rw [glueJunctions_concat] at hnd
    exact List.Nodup.of_append_left hnd
  · intro v
    rw [List.mem_append]
    constructor
    · rintro (hv | hv)
      · refine Or.inr ?_
        rw [← mem_orient v c b0]
        exact List.dropLast_subset _ hv
      · exact Or.inl hv
    · rintro (hv | hv)
      · exact Or.inr hv
      · rw [← mem_orient v c b0] at hv
        rcases (mem_chain_iff_dropLast_last _ hone v).mp hv with hv2 | rfl
        · exact Or.inl hv2
        · right
          rw [h2]
          exact chainStart_mem current hcurne
  · rw [List.length_append, List.length_dropLast]
    omega
  · rw [List.length_append]
    omega

set_option maxHeartbeats 1600000 in
/-- One step of the greedy accumulator on a single-cycle input: the scan
finds a candidate, and the spliced accumulator again satisfies the cycle
invariant with one chain fewer. -/
theorem scan_step (current : Chain) (remaining : List Chain)
    (l : List (Chain × Bool))
    (hperm : (l.map Prod.fst).Perm remaining)
    (hnonempty : remaining ≠ [])
    (hlen : ∀ ch ∈ current :: remaining, 2 ≤ ch.length)
    (hglue : pathGlue (chainEnd current) (chainStart current)
      (orientAll l) = true)
    (hnd : (glueJunctions (chainEnd current) (orientAll l)).Nodup) :
    ∃ cur2 rest2 l2,
      scanConnect current remaining = some (cur2, rest2) ∧
      (l2.map Prod.fst).Perm rest2 ∧
      (∀ ch ∈ cur2 :: rest2, 2 ≤ ch.length) ∧
      pathGlue (chainEnd cur2) (chainStart cur2) (orientAll l2) = true ∧
      (glueJunctions (chainEnd cur2) (orientAll l2)).Nodup ∧
      rest2.length + 1 = remaining.length ∧
      (∀ v, (v ∈ cur2 ∨ ∃ ch ∈ rest2, v ∈ ch) ↔
        (v ∈ current ∨ ∃ ch ∈ remaining, v ∈ ch)) ∧
      cur2.length + (rest2.map List.length).sum + 1 =
        current.length + (remaining.map List.length).sum := by
  have hlcur : 2 ≤ current.length := hlen current (by simp)
  have hpne : ∀ p ∈ l, p.1 ≠ [] := by
    intro p hp
    have hmem : p.1 ∈ remaining :=
      hperm.mem_iff.mp (List.mem_map.mpr ⟨p, hp, rfl⟩)
    exact ne_nil_of_two_le (hlen p.1 (List.mem_cons_of_mem _ hmem))
  cases l with
  | nil =>
    exfalso
    simp only [List.map_nil] at hperm
    exact hnonempty hperm.symm.eq_nil
  | cons q ltail0 =>
    have hq1mem : q.1 ∈ remaining := by
      refine hperm.mem_iff.mp ?_
      exact List.mem_map.mpr ⟨q, by simp, rfl⟩
    have hqne : q.1 ≠ [] := hpne q (by simp)
    rw [orientAll_cons] at hglue
    rcases (pathGlue_cons_iff _ _ _ _).mp hglue with ⟨hq1, -⟩
    rw [← orientAll_cons] at hglue
    have hmc : matchCond current q.1 = true := by
      rw [matchCond]
      rcases orient_items q.1 q.2 hqne with ⟨e1, e2⟩ | ⟨e1, e2⟩
      · have : coordsEqual (chainEnd current) (chainStart q.1) = true :=
          (coordsEqual_iff _ _).mpr (by rw [← e1, hq1])
        simp [this]
      · have : coordsEqual (chainEnd current) (chainEnd q.1) = true :=
          (coordsEqual_iff _ _).mpr (by rw [← e1, hq1])
        simp [this]
    rcases scanConnect_isSome current remaining ⟨q.1, hq1mem, hmc⟩ with
      ⟨res, hres⟩
    rcases res with ⟨cur2, rest2⟩
    rcases scanConnect_some_char current remaining cur2 rest2 hres with
      ⟨c, pre, post, hrem, hrest, hcases⟩
    have hcmem : c ∈ remaining := by
      rw [hrem]
      exact List.mem_append.mpr (Or.inr (by simp))
    have hclen : 2 ≤ c.length := hlen c (List.mem_cons_of_mem _ hcmem)
    have hcne : c ≠ [] := ne_nil_of_two_le hclen
    have hperm_rem : remaining.Perm (c :: rest2) := by
      rw [hrem, hrest]
      exact List.perm_middle
    have hpermc : ((q :: ltail0).map Prod.fst).Perm (c :: rest2) :=
      hperm.trans hperm_rem
    have hbbmem : ∃ bb, (c, bb) ∈ q :: ltail0 := by
      have hc1 : c ∈ (q :: ltail0).map Prod.fst :=
        hpermc.symm.mem_iff.mp (by simp)
      rcases List.mem_map.mp hc1 with ⟨p, hp, hpe⟩
      rcases p with ⟨pc, pb⟩
      exact ⟨pb, by rwa [show pc = c from hpe] at hp⟩
    rcases hbbmem with ⟨bb, hbbl⟩
    have hdist : chainStart c ≠ chainEnd c := by
      have := pair_ends_distinct (chainStart current) (q :: ltail0)
        (chainEnd current) hglue hpne hnd (c, bb) hbbl
      simpa using this
    have hsum : (remaining.map List.length).sum =
        c.length + (rest2.map List.length).sum := by
      have h0 := (hperm_rem.map List.length).sum_eq
      simpa using h0
    have hrestlen : ∀ ch ∈ rest2, 2 ≤ ch.length := by
      intro ch hch
      refine hlen ch (List.mem_cons_of_mem _ ?_)
      exact hperm_rem.mem_iff.mpr (List.mem_cons_of_mem _ hch)
    have hlen2 : rest2.length + 1 = remaining.length := by
      have h0 := hperm_rem.length_eq
      simp at h0
      omega
    have hmemtrans : ∀ v : Coord, (∃ ch ∈ remaining, v ∈ ch) ↔
        (v ∈ c ∨ ∃ ch ∈ rest2, v ∈ ch) := by
      intro v
      constructor
      · rintro ⟨ch, hch, hv⟩
        rcases List.mem_cons.mp (hperm_rem.mem_iff.mp hch) with rfl | hch2
        · exact Or.inl hv
        · exact Or.inr ⟨ch, hch2, hv⟩
      · rintro (hv | ⟨ch, hch, hv⟩)
        · exact ⟨c, hcmem, hv⟩
        · exact ⟨ch, hperm_rem.mem_iff.mpr (List.mem_cons_of_mem _ hch), hv⟩
    rcases hcases with ⟨hc1, hcur⟩ | ⟨hc1f, hc2, hcur⟩ |
      ⟨hc1f, hc2f, hc3, hcur⟩ | ⟨hc1f, hc2f, hc3f, hc4, hcur⟩
    · -- append forward: candidate starts at the accumulator's end
      have hstart : chainStart c = chainEnd current :=
        ((coordsEqual_iff _ _).mp hc1).symm
      rcases front_pair (chainStart current) (q :: ltail0) (chainEnd current)
        c hglue hpne hnd ⟨bb, hbbl⟩ (Or.inl hstart) with ⟨b0, ltail, hldef⟩
      rw [hldef] at hglue hnd hpermc
      cases b0 with
      | true =>
        exfalso
        rw [orientAll_cons] at hglue
        rcases (pathGlue_cons_iff _ _ _ _).mp hglue with ⟨h1x, -⟩
        rw [orient_true, chainStart_reverse c hcne] at h1x
        exact hdist (hstart.trans h1x.symm)
      | false =>
        rcases step_extend_end current c false ltail hlcur hclen hglue hnd with
          ⟨g1, g2, g3, g4, g5⟩
        have hc2eq : cur2 = current ++ (orient c false).tail := by
          rw [hcur, orient_false]
        have hptail : (ltail.map Prod.fst).Perm rest2 := by
          simp only [List.map_cons] at hpermc
          exact hpermc.cons_inv
        refine ⟨cur2, rest2, ltail, hres, hptail, ?_, ?_, ?_, hlen2, ?_, ?_⟩
        · intro ch hch
          rcases List.mem_cons.mp hch with rfl | hch2
          · rw [hc2eq]; exact g5
          · exact hrestlen ch hch2
        · rw [hc2eq]; exact g1
        · rw [hc2eq]; exact g2
        · intro v
          rw [hc2eq, hmemtrans v, g3 v]
          tauto
        · rw [hc2eq, hsum]
          omega
    · -- append reversed: candidate ends at the accumulator's end
      have hstartne : chainStart c ≠ chainEnd current := by
        intro h0
        exact absurd ((coordsEqual_iff _ _).mpr h0.symm)
          (by rw [hc1f]; simp)
      have hendeq : chainEnd c = chainEnd current :=
        ((coordsEqual_iff _ _).mp hc2).symm
      rcases front_pair (chainStart current) (q :: ltail0) (chainEnd current)
        c hglue hpne hnd ⟨bb, hbbl⟩ (Or.inr hendeq) with ⟨b0, ltail, hldef⟩
      rw [hldef] at hglue hnd hpermc
      cases b0 with
      | false =>
        exfalso
        rw [orientAll_cons] at hglue
        rcases (pathGlue_cons_iff _ _ _ _).mp hglue with ⟨h1x, -⟩
        rw [orient_false] at h1x
        exact hstartne h1x
      | true =>
        rcases step_extend_end current c true ltail hlcur hclen hglue hnd with
          ⟨g1, g2, g3, g4, g5⟩
        have hc2eq : cur2 = current ++ (orient c true).tail := by
          rw [hcur, orient_true, ← dropLast_reverse_eq]
        have hptail : (ltail.map Prod.fst).Perm rest2 := by
          simp only [List.map_cons] at hpermc
          exact hpermc.cons_inv
        refine ⟨cur2, rest2, ltail, hres, hptail, ?_, ?_, ?_, hlen2, ?_, ?_⟩
        · intro ch hch
          rcases List.mem_cons.mp hch with rfl | hch2
          · rw [hc2eq]; exact g5
          · exact hrestlen ch hch2
        · rw [hc2eq]; exact g1
        · rw [hc2eq]; exact g2
        · intro v
          rw [hc2eq, hmemtrans v, g3 v]
          tauto
        · rw [hc2eq, hsum]
          omega
    · -- prepend forward: candidate ends at the accumulator's start
      have hendeq : chainEnd c = chainStart current :=
        ((coordsEqual_iff _ _).mp hc3).symm
      rcases back_pair (chainStart current) (q :: ltail0) (chainEnd current)
        c hglue hpne hnd ⟨bb, hbbl⟩ (Or.inr hendeq) with ⟨b0, linit, hldef⟩
      rw [hldef] at hglue hnd hpermc
      cases b0 with
      | true =>
        exfalso
        rw [orientAll_append] at hglue
        have horient1 : orientAll [(c, true)] = [orient c true] := rfl
        rw [horient1] at hglue
        rcases (pathGlue_concat _ _ _ _).mp hglue with ⟨-, h2x⟩
        rw [orient_true, chainEnd_reverse c hcne] at h2x
        exact hdist (h2x.trans hendeq.symm)
      | false =>
        rcases step_extend_start current c false linit hlcur hclen hglue hnd
          with ⟨g1, g2, g3, g4, g5, -⟩
        have hc2eq : cur2 = (orient c false).dropLast ++ current := by
          rw [hcur, orient_false]
        have hptail : (linit.map Prod.fst).Perm rest2 := by
          have hmapsplit : ((linit ++ [(c, false)]).map Prod.fst) =
              linit.map Prod.fst ++ [c] := by simp
          rw [hmapsplit] at hpermc
          have hircons : (linit.map Prod.fst ++ [c]).Perm
              (c :: linit.map Prod.fst) :=
            List.perm_append_singleton c (linit.map Prod.fst)
          exact (hircons.symm.trans hpermc).cons_inv
        refine ⟨cur2, rest2, linit, hres, hptail, ?_, ?_, ?_, hlen2, ?_, ?_⟩
        · intro ch hch
          rcases List.mem_cons.mp hch with rfl | hch2
          · rw [hc2eq]; exact g5
          · exact hrestlen ch hch2
        · rw [hc2eq]; exact g1
        · rw [hc2eq]; exact g2
        · intro v
          rw [hc2eq, hmemtrans v, g3 v]
          tauto
        · rw [hc2eq, hsum]
          omega
    · -- prepend reversed: candidate starts at the accumulator's start
      have hstarteq : chainStart c = chainStart current :=
        ((coordsEqual_iff _ _).mp hc4).symm
      have hendne : chainEnd c ≠ chainStart current := by
        intro h0
        exact absurd ((coordsEqual_iff _ _).mpr h0.symm)
          (by rw [hc3f]; simp)
      rcases back_pair (chainStart current) (q :: ltail0) (chainEnd current)
        c hglue hpne hnd ⟨bb, hbbl⟩ (Or.inl hstarteq) with ⟨b0, linit, hldef⟩
      rw [hldef] at hglue hnd hpermc
      cases b0 with
      | false =>
        exfalso
        rw [orientAll_append] at hglue
        have horient1 : orientAll [(c, false)] = [orient c false] := rfl
        rw [horient1] at hglue
        rcases (pathGlue_concat _ _ _ _).mp hglue with ⟨-, h2x⟩
        rw [orient_false] at h2x
        exact hendne h2x
      | true =>
        rcases step_extend_start current c true linit hlcur hclen hglue hnd
          with ⟨g1, g2, g3, g4, g5, -⟩
        have hc2eq : cur2 = (orient c true).dropLast ++ current := by
          rw [hcur, orient_true, ← tail_reverse_eq]
        have hptail : (linit.map Prod.fst).Perm rest2 := by
          have hmapsplit : ((linit ++ [(c, true)]).map Prod.fst) =
              linit.map Prod.fst ++ [c] := by simp
          rw [hmapsplit] at hpermc
          have hircons : (linit.map Prod.fst ++ [c]).Perm
              (c :: linit.map Prod.fst) :=
            List.perm_append_singleton c (linit.map Prod.fst)
          exact (hircons.symm.trans hpermc).cons_inv
        refine ⟨cur2, rest2, linit, hres, hptail, ?_, ?_, ?_, hlen2, ?_, ?_⟩
        · intro ch hch
          rcases List.mem_cons.mp hch with rfl | hch2
          · rw [hc2eq]; exact g5
          · exact hrestlen ch hch2
        · rw [hc2eq]; exact g1
        · rw [hc2eq]; exact g2
        · intro v
          rw [hc2eq, hmemtrans v, g3 v]
          tauto
        · rw [hc2eq, hsum]
          omega

/-- Running the accumulator loop on a single-cycle input consumes every
remaining chain and returns a closed ring covering exactly the input
vertices, with one duplicated junction removed per splice. -/
theorem growRing_cycle (n : Nat) :
    ∀ (current : Chain) (remaining : List Chain) (l : List (Chain × Bool)),
      remaining.length ≤ n →
      (l.map Prod.fst).Perm remaining →
      (∀ ch ∈ current :: remaining, 2 ≤ ch.length) →
      pathGlue (chainEnd current) (chainStart current) (orientAll l) = true →
      (glueJunctions (chainEnd current) (orientAll l)).Nodup →
      ∃ ring, growRing current remaining = some (ring, []) ∧
        chainStart ring = chainEnd ring ∧
        (∀ v, v ∈ ring ↔ (v ∈ current ∨ ∃ ch ∈ remaining, v ∈ ch)) ∧
        ring.length + remaining.length =
          current.length + (remaining.map List.length).sum := by
  induction n with
  | zero =>
    intro current remaining l hbound hperm hlen hglue hnd
    have hre : remaining = [] := List.length_eq_zero.mp (Nat.le_zero.mp hbound)
    subst hre
    have hl0 : l = [] := List.map_eq_nil_iff.mp hperm.eq_nil
    subst hl0
    rw [orientAll_nil] at hglue
    have hcl : chainEnd current = chainStart current :=
      (pathGlue_nil_iff _ _).mp hglue
    have hclb : coordsEqual (chainStart current) (chainEnd current) = true :=
      (coordsEqual_iff _ _).mpr hcl.symm
    refine ⟨current, ?_, hcl.symm, ?_, ?_⟩
    · rw [growRing, if_pos hclb]
    · intro v; simp
    · simp
  | succ n ih =>
    intro current remaining l hbound hperm hlen hglue hnd
    by_cases hre : remaining = []
    · subst hre
      have hl0 : l = [] := List.map_eq_nil_iff.mp hperm.eq_nil
      subst hl0
      rw [orientAll_nil] at hglue
      have hcl : chainEnd current = chainStart current :=
        (pathGlue_nil_iff _ _).mp hglue
      have hclb : coordsEqual (chainStart current) (chainEnd current) = true :=
        (coordsEqual_iff _ _).mpr hcl.symm
      refine ⟨current, ?_, hcl.symm, ?_, ?_⟩
      · rw [growRing, if_pos hclb]
      · intro v; simp
      · simp
    · have hlne : l ≠ [] := by
        intro h0
        subst h0
        simp only [List.map_nil] at hperm
        exact hre hperm.symm.eq_nil
      rcases hlq : l with _ | ⟨q, lt⟩
      · exact absurd hlq hlne
      subst hlq
      have hjunc : glueJunctions (chainEnd current) (orientAll (q :: lt)) =
          chainEnd current :: chainEnd (orient q.1 q.2) ::
            (orientAll lt).map chainEnd := rfl
      have hnotmem : chainEnd current ∉
          chainEnd (orient q.1 q.2) :: (orientAll lt).map chainEnd := by
        have hnd2 := hnd
        rw [hjunc] at hnd2
        exact (List.nodup_cons.mp hnd2).1
      have hlast := pathGlue_getLast (chainEnd current) (chainStart current)
        (orientAll (q :: lt)) hglue
      rw [hjunc, List.getLast?_cons_cons] at hlast
      have hscmem : chainStart current ∈
          chainEnd (orient q.1 q.2) :: (orientAll lt).map chainEnd := by
        rcases List.getLast?_eq_some_iff.mp hlast with ⟨ys, hys⟩
        rw [hys]
        simp
      have hne : chainEnd current ≠ chainStart current := by
        intro h0
        rw [h0] at hnotmem
        exact hnotmem hscmem
      have hncl : ¬(coordsEqual (chainStart current) (chainEnd current)
          = true) := by
        rw [(coordsEqual_eq_false_iff _ _).mpr (fun h0 => hne h0.symm)]
        simp
      rcases scan_step current remaining (q :: lt) hperm hre hlen hglue hnd
        with ⟨cur2, rest2, l2, hscan, hperm2, hlen2, hglue2, hnd2, hcount,
          hvert, hsum⟩
      have hrlen : rest2.length ≤ n := by
        have hb2 : remaining.length ≤ n + 1 := hbound
        omega
      rcases ih cur2 rest2 l2 hrlen hperm2 hlen2 hglue2 hnd2 with
        ⟨ring, hgrow, hclosed, hvmem, hrsum⟩
      refine ⟨ring, ?_, hclosed, ?_, ?_⟩
      · rw [growRing, if_neg hncl, hscan]
        exact hgrow
      · intro v
        exact (hvmem v).trans (hvert v)
      · omega

/-- C3: `mergeWaysIntoRings` (geometryParser.js:146) on the empty input and
on a single chain behaves as specified; with two or more chains a failed
merge collapses to the empty list; and when the chains can be glued at
exactly-matching shared endpoints into exactly one topological ring (an
orientation witness glues them into a single closed path whose junction
coordinates are pairwise distinct), it returns exactly one closed ring whose
vertex set is the union of the input vertices and whose length counts each
of the shared junctions once. -/
theorem claim3_ring_merge :
    (mergeWaysIntoRings [] = []) ∧
    (∀ w : Chain, mergeWaysIntoRings [w] =
      if coordsEqual (chainStart w) (chainEnd w) then [w] else []) ∧
    (∀ ways : List Chain, 2 ≤ ways.length → mergeLoop ways = none →
      mergeWaysIntoRings ways = []) ∧
    (∀ (w : Chain) (rest : List Chain) (l : List (Chain × Bool)),
      rest ≠ [] →
      (l.map Prod.fst).Perm rest →
      (∀ ch ∈ w :: rest, 2 ≤ ch.length) →
      pathGlue (chainEnd w) (chainStart w) (orientAll l) = true →
      (glueJunctions (chainEnd w) (orientAll l)).Nodup →
      ∃ ring, mergeWaysIntoRings (w :: rest) = [ring] ∧
        chainStart ring = chainEnd ring ∧
        (∀ v, v ∈ ring ↔ ∃ ch ∈ w :: rest, v ∈ ch) ∧
        ring.length + (w :: rest).length =
          ((w :: rest).map List.length).sum + 1) := by
  refine ⟨rfl, fun w => rfl, ?_, ?_⟩
  · intro ways h2 hnone
    rcases ways with _ | ⟨a, _ | ⟨b, t2⟩⟩
    · rfl
    · simp at h2
    · show (mergeLoop (a :: b :: t2)).getD [] = []
      rw [hnone]
      rfl
  · intro w rest l hne hperm hlen hglue hnd
    rcases growRing_cycle rest.length w rest l (Nat.le_refl _) hperm hlen
      hglue hnd with ⟨ring, hgrow, hclosed, hv, hsum⟩
    rcases rest with _ | ⟨r0, rrest⟩
    · exact absurd rfl hne
    have hnil : mergeLoop ([] : List Chain) = some [] := by rw [mergeLoop]
    have hloop : mergeLoop (w :: r0 :: rrest) = some [ring] := by
      rw [mergeLoop, hgrow]
      simp [hnil]
    refine ⟨ring, ?_, hclosed, ?_, ?_⟩
    · show (mergeLoop (w :: r0 :: rrest)).getD [] = [ring]
      rw [hloop]
      rfl
    · intro v
      rw [hv v]
      constructor
      · rintro (h0 | ⟨ch, hch, h0⟩)
        · exact ⟨w, by simp, h0⟩
        · exact ⟨ch, List.mem_cons_of_mem _ hch, h0⟩
      · rintro ⟨ch, hch, h0⟩
        rcases List.mem_cons.mp hch with rfl | hch2
        · exact Or.inl h0
        · exact Or.inr ⟨ch, hch2, h0⟩
    · simp only [List.length_cons, List.map_cons, List.sum_cons]
      simp only [List.length_cons, List.map_cons, List.sum_cons] at hsum
      omega

/-- A concrete triangle split into three open chains merges into exactly one
closed ring. -/
theorem claim3_witness :
    ∃ ring, mergeWaysIntoRings
        [[((0 : Int), (0 : Int)), (1, 0)], [(1, 0), (1, 1)],
          [(1, 1), (0, 0)]] = [ring] ∧
      chainStart ring = chainEnd ring := by
  rcases claim3_ring_merge.2.2.2
      [((0 : Int), (0 : Int)), (1, 0)]
      [[((1 : Int), (0 : Int)), (1, 1)], [(1, 1), (0, 0)]]
      [([((1 : Int), (0 : Int)), (1, 1)], false),
        ([((1 : Int), (1 : Int)), (0, 0)], false)]
      (by decide) (by decide) (by decide) (by decide) (by decide) with
    ⟨ring, h1, h2, -, -⟩
  exact ⟨ring, h1, h2⟩

end XofY
